import Mathlib

/-!
Verification of the document conversion and packaging pipeline of the
ocr-mobi repository (src/app.js) against its natural-language specification.

The JavaScript source is shallowly embedded: strings are `String`/`List Char`,
byte sequences are `List Nat` (each element intended `< 256`), JavaScript
`Map` objects are association lists with `Map.set` update semantics,
fallible operations (`atob`, EPUB generation over possibly-invalid base64)
return `Option`, and the in-place `Array.prototype.sort` mutation of
`combineMarkdown` is modelled by explicit state passing.  External
collaborators (the `marked` markdown renderer and the MathJax math engine)
are parameters: the renderer is a `String → String` argument and the math
engine an `Option (String → Bool → Option String)` (`none` models
`typeof MathJax === 'undefined'`; an engine returning `none` on an input
models a thrown rendering exception).
-/

/-! ## JavaScript string primitives -/

/-- Truthiness of an optional JavaScript string: `undefined`, `null` and
the empty string are falsy, any other string is truthy. -/
def truthyStr : Option String → Option String
  | none => none
  | some s => if s = "" then none else some s

/-- `pre.isPrefixOf s` on character lists, modelling
`String.prototype.startsWith`. -/
def jsStartsWith : List Char → List Char → Bool
  | [], _ => true
  | _ :: _, [] => false
  | p :: ps, c :: cs => p == c && jsStartsWith ps cs

/-- Substring test: some position of `cs` starts with `pat`.  Used to state
claims about what an output does or does not contain. -/
def containsSub (pat : List Char) : List Char → Bool
  | [] => jsStartsWith pat []
  | c :: rest => jsStartsWith pat (c :: rest) || containsSub pat rest

/-- ES2023 `GetSubstitution` for a string search pattern (no capture groups):
in the replacement string, `$$` stands for `$`, `$&` for the matched text,
a dollar before backtick for the text before the match, a dollar before
apostrophe for the text after the match; everything else (including `$`
followed by a digit, since there are no captures) is literal. -/
def getSubst (matched before after : List Char) : List Char → List Char
  | [] => []
  | c :: rest =>
    if c = '$' then
      match rest with
      | [] => ['$']
      | d :: rest2 =>
        if d = '$' then '$' :: getSubst matched before after rest2
        else if d = '&' then matched ++ getSubst matched before after rest2
        else if d = Char.ofNat 96 then before ++ getSubst matched before after rest2
        else if d = Char.ofNat 39 then after ++ getSubst matched before after rest2
        else '$' :: d :: getSubst matched before after rest2
    else c :: getSubst matched before after rest

/-- Scanner for `String.prototype.replace(searchString, replaceString)`:
finds the first occurrence of `pat` left to right, substitutes the
replacement (with `GetSubstitution` semantics) and stops.  `acc` holds the
already-scanned text in reverse. -/
def replFirstGo (pat rep : List Char) (acc : List Char) : List Char → List Char
  | [] =>
    if jsStartsWith pat [] then
      acc.reverse ++ getSubst pat acc.reverse [] rep
    else acc.reverse
  | c :: rest =>
    if jsStartsWith pat (c :: rest) then
      acc.reverse ++ getSubst pat acc.reverse ((c :: rest).drop pat.length) rep
        ++ (c :: rest).drop pat.length
    else replFirstGo pat rep (c :: acc) rest

/-- `s.replace(pat, rep)` with a string search pattern: replaces the first
occurrence only, applying JavaScript replacement-string semantics. -/
def jsReplaceFirst (s pat rep : String) : String :=
  ⟨replFirstGo pat.data rep.data [] s.data⟩

/-- `String.prototype.split(sep)` for a one-character separator. -/
def jsSplit (sep : Char) : List Char → List (List Char)
  | [] => [[]]
  | c :: rest =>
    if c = sep then [] :: jsSplit sep rest
    else
      match jsSplit sep rest with
      | [] => [[c]]
      | h :: t => (c :: h) :: t

/-- Split a character list at the first occurrence of `c`: returns the
part strictly before it and the part strictly after it. -/
def splitUntil (c : Char) : List Char → Option (List Char × List Char)
  | [] => none
  | d :: t =>
    if d = c then some ([], t)
    else (splitUntil c t).map fun p => (d :: p.1, p.2)

/-- JavaScript `String.prototype.trim` (ASCII whitespace suffices for the
inputs of this pipeline). -/
def isJsWs (c : Char) : Bool :=
  c == ' ' || c == '\t' || c == '\n' || c == '\r' || c == '\x0c' || c == '\x0b'

/-- `s.trim()`. -/
def trimStr (s : String) : String :=
  ⟨(s.data.dropWhile isJsWs).reverse.dropWhile isJsWs |>.reverse⟩

/-- `id.split(".").pop()`: the last dot-separated component. -/
def splitPop (s : String) : String :=
  ⟨(jsSplit '.' s.data).getLastD []⟩

/-- JavaScript `Map.prototype.set` on an association list: an existing key
keeps its position and gets the new value, a new key is appended. -/
def mapSet {β : Type} (m : List (String × β)) (k : String) (v : β) :
    List (String × β) :=
  if m.any (fun p => p.1 == k) then
    m.map fun p => if p.1 == k then (k, v) else p
  else m ++ [(k, v)]

/-! ## Base64 (browser `btoa`/`atob` built-ins used by `fileToBase64` and
`base64ToBytes`) -/

/-- The standard base64 alphabet. -/
def b64Table : List Char :=
  "ABCDEFGHIJKLMNOPQRSTUVWXYZabcdefghijklmnopqrstuvwxyz0123456789+/".data

/-- Sextet value to base64 character (only used with values `< 64`). -/
def encChar (n : Nat) : Char := b64Table.getD n 'A'

/-- Base64 character to sextet value; `none` for characters outside the
alphabet. -/
def decChar (c : Char) : Option Nat :=
  let i := b64Table.indexOf c
  if i < 64 then some i else none

/-- `btoa` encoding loop: three input bytes become four alphabet characters,
a final one- or two-byte group is padded with `=`. -/
def encodeTriples : List Nat → List Char
  | [] => []
  | [a] => [encChar (a / 4), encChar (a % 4 * 16), '=', '=']
  | [a, b] => [encChar (a / 4), encChar (a % 4 * 16 + b / 16), encChar (b % 16 * 4), '=']
  | a :: b :: c :: rest =>
    encChar (a / 4) :: encChar (a % 4 * 16 + b / 16) :: encChar (b % 16 * 4 + c / 64)
      :: encChar (c % 64) :: encodeTriples rest

/-- Browser `btoa` on a binary string whose code units are the given bytes. -/
def btoa (bytes : List Nat) : String := ⟨encodeTriples bytes⟩

/-- `fileToBase64`: the source reads the input into a `Uint8Array`, folds it
into a binary string with `String.fromCharCode` and applies `btoa`; since
`fromCharCode` is injective on byte values the composition is base64
encoding of the byte sequence. -/
def fileToBase64 (bytes : List Nat) : String := btoa bytes

/-- ASCII whitespace removed by forgiving-base64 decoding. -/
def isB64Ws (c : Char) : Bool :=
  c == ' ' || c == '\t' || c == '\n' || c == '\x0c' || c == '\r'

/-- Number of `=` padding characters (at most two) at the head of a
reversed character list. -/
def padLen (r : List Char) : Nat :=
  if r.head? = some '=' then if r.tail.head? = some '=' then 2 else 1 else 0

/-- Remove trailing `=` padding when the length is a multiple of four
(WHATWG forgiving-base64, step used by `atob`). -/
def stripPad (cs : List Char) : List Char :=
  if cs.length % 4 == 0 then cs.take (cs.length - padLen cs.reverse) else cs

/-- Decode groups of four sextet characters into three bytes; a trailing
group of two or three characters yields one or two bytes (leftover bits
discarded), a single trailing character is invalid. -/
def decodeQuads : List Char → Option (List Nat)
  | [] => some []
  | [_] => none
  | [c1, c2] => do
    let s0 ← decChar c1
    let s1 ← decChar c2
    some [s0 * 4 + s1 / 16]
  | [c1, c2, c3] => do
    let s0 ← decChar c1
    let s1 ← decChar c2
    let s2 ← decChar c3
    some [s0 * 4 + s1 / 16, s1 % 16 * 16 + s2 / 4]
  | c1 :: c2 :: c3 :: c4 :: rest => do
    let s0 ← decChar c1
    let s1 ← decChar c2
    let s2 ← decChar c3
    let s3 ← decChar c4
    let r ← decodeQuads rest
    some ((s0 * 4 + s1 / 16) :: (s1 % 16 * 16 + s2 / 4) :: (s2 % 4 * 64 + s3) :: r)

/-- Browser `atob` (WHATWG forgiving-base64 decode): strip ASCII whitespace,
strip `=` padding, reject a leftover length of one modulo four, decode;
`none` models the `InvalidCharacterError` exception. -/
def atobList (cs : List Char) : Option (List Nat) :=
  let noWs := cs.filter fun c => !isB64Ws c
  let d := stripPad noWs
  if d.length % 4 == 1 then none else decodeQuads d

/-- `base64ToBytes`: take the part of the input selected by
`base64.includes(",") ? base64.split(",")[1] : base64` and `atob`-decode it
into bytes. -/
def base64ToBytes (s : String) : Option (List Nat) :=
  let data := if s.data.contains ',' then (jsSplit ',' s.data).getD 1 [] else s.data
  atobList data

/-- The portion of `cs` strictly between the first comma and the next comma
after it (or the end of the input when there is no second comma); the whole
input when there is no comma at all.  Defined independently of `jsSplit` to
characterize what `base64ToBytes` actually decodes. -/
def betweenFirstCommas (cs : List Char) : List Char :=
  match splitUntil ',' cs with
  | some p => p.2.takeWhile fun c => c != ','
  | none => cs

/-! ## Data model (OCR result shape consumed by the conversion functions) -/

/-- A per-page image record from the OCR result.  The source reads
`img.id || img.name` and `img.image_base64`; each field may be absent, and
JavaScript truthiness additionally treats the empty string as absent. -/
structure ImageRef where
  id : Option String
  name : Option String
  image_base64 : Option String
deriving DecidableEq

/-- A per-page table record: `{id, content}`, either may be absent. -/
structure TableRef where
  id : Option String
  content : Option String
deriving DecidableEq

/-- One OCR page. -/
structure Page where
  index : Int
  markdown : Option String
  tables : Option (List TableRef)
  images : Option (List ImageRef)
deriving DecidableEq

/-- The OCR result: `ocrResult?.pages` may be absent. -/
structure OcrResult where
  pages : Option (List Page)
deriving DecidableEq

/-- An entry of the image registry built by `extractImages`:
`{data: img.image_base64, format: id.split(".").pop()}`. -/
structure ImageEntry where
  data : String
  format : String
deriving DecidableEq

/-! ## `combineMarkdown`, `inlineTableContent`, `extractImages` -/

/-- Comparator `(a, b) => a.index - b.index` of `combineMarkdown`'s
`Array.prototype.sort` call, as a relation. -/
def pageLe (a b : Page) : Prop := a.index ≤ b.index

instance : DecidableRel pageLe := fun a b => Int.decLe a.index b.index

instance : IsTotal Page pageLe := ⟨fun a b => Int.le_total a.index b.index⟩

instance : IsTrans Page pageLe := ⟨fun _ _ _ => Int.le_trans⟩

/-- `pages.sort((a, b) => a.index - b.index)`: ECMAScript `Array.prototype.sort`
is required to be stable, and a stable sort by a total preorder is unique, so
it is modelled by insertion sort with `pageLe`. -/
def sortPages (ps : List Page) : List Page := List.insertionSort pageLe ps

/-- `inlineTableContent(markdown, tables)`: for each table with truthy `id`
and `content`, replace the placeholder link `[id](id)` in the running result
via `String.prototype.replace` (first occurrence, JavaScript replacement
semantics). -/
def inlineTableContent (markdown : String) (tables : Option (List TableRef)) :
    String :=
  if markdown = "" then markdown
  else
    match tables with
    | none => markdown
    | some [] => markdown
    | some ts =>
      ts.foldl
        (fun result table =>
          match truthyStr table.id, truthyStr table.content with
          | some i, some c =>
            jsReplaceFirst result ("[" ++ i ++ "](" ++ i ++ ")") c
          | _, _ => result)
        markdown

/-- The page separator of `combineMarkdown`'s `join`. -/
def pageSep : String := "\n\n---\n\n"

/-- `Array.prototype.join(pageSep)`. -/
def joinSep : List String → String
  | [] => ""
  | [s] => s
  | s :: rest => s ++ pageSep ++ joinSep rest

/-- The markdown text contributed by one page:
`inlineTableContent(page.markdown || "", page.tables)`. -/
def pageText (p : Page) : String := inlineTableContent (p.markdown.getD "") p.tables

/-- `combineMarkdown(ocrResult)`: empty string for a missing or empty pages
array, else sort by index, inline tables per page and join with the
separator. -/
def combineMarkdown (ocr : OcrResult) : String :=
  match ocr.pages with
  | none => ""
  | some [] => ""
  | some ps => joinSep ((sortPages ps).map pageText)

/-- `combineMarkdown` with its state effect made explicit: `.sort()` sorts
the caller's `pages` array in place, so the input `OcrResult` after the call
carries the sorted array (the early return for missing/empty pages leaves
the input untouched). -/
def combineMarkdownState (ocr : OcrResult) : String × OcrResult :=
  match ocr.pages with
  | none => ("", ocr)
  | some [] => ("", ocr)
  | some ps =>
    (joinSep ((sortPages ps).map pageText), { ocr with pages := some (sortPages ps) })

/-- Effective identifier of an image record: `img.id || img.name`, truthy or
nothing. -/
def effId (img : ImageRef) : Option String :=
  match truthyStr img.id with
  | some s => some s
  | none => truthyStr img.name

/-- `extractImages(ocrResult)`: walk all pages and all images, registering
`id -> {data, format}` for every image with a truthy effective id and truthy
base64 data; everything else is skipped. -/
def extractImages (ocr : OcrResult) : List (String × ImageEntry) :=
  match ocr.pages with
  | none => []
  | some ps =>
    ps.foldl
      (fun images page =>
        match page.images with
        | none => images
        | some imgs =>
          imgs.foldl
            (fun images img =>
              match effId img, truthyStr img.image_base64 with
              | some i, some d => mapSet images i ⟨d, splitPop i⟩
              | _, _ => images)
            images)
      []

/-- An image record survives extraction filtering iff its effective id and
its base64 data are both truthy. -/
def validImg (img : ImageRef) : Bool :=
  (effId img).isSome && (truthyStr img.image_base64).isSome

/-- The same OCR result with all invalid image records removed. -/
def pruneInvalid (ocr : OcrResult) : OcrResult :=
  ⟨ocr.pages.map fun ps =>
    ps.map fun p => { p with images := p.images.map (List.filter validImg) }⟩

/-! ## Counting separator occurrences (for the N−1 separators property) -/

/-- Whether a character list contains three consecutive hyphens. -/
def hasTriple : List Char → Bool
  | [] => false
  | [_] => false
  | [_, _] => false
  | c1 :: c2 :: c3 :: rest =>
    (c1 == '-' && c2 == '-' && c3 == '-') || hasTriple (c2 :: c3 :: rest)

/-- Greedy left-to-right counter of non-overlapping occurrences of `pat`
(fuelled; the fuel is always instantiated with the input length). -/
def countGo (pat : List Char) : Nat → List Char → Nat
  | 0, _ => 0
  | _ + 1, [] => 0
  | f + 1, c :: cs =>
    if jsStartsWith pat (c :: cs) then
      1 + countGo pat f (cs.drop (pat.length - 1))
    else countGo pat f cs

/-- Number of (greedy, non-overlapping) occurrences of `pat` in `cs`. -/
def countSubstr (pat cs : List Char) : Nat := countGo pat cs.length cs

/-! ## `processMarkdownImages` (the reference rewriter) -/

/-- Final stage of the image regex after `](`: the maximal paren-free
non-empty run up to the first `)`. -/
def matchSrc (alt t2 : List Char) : Option (List Char × List Char × List Char) :=
  match splitUntil ')' t2 with
  | none => none
  | some (src, t3) => if src = [] then none else some (alt, src, t3)

/-- Middle stage of the image regex: after the closing `]` a literal `(`
must follow. -/
def matchParen (alt t1 : List Char) : Option (List Char × List Char × List Char) :=
  match t1 with
  | [] => none
  | d :: t2 => if d = '(' then matchSrc alt t2 else none

/-- Parse the continuation of a markdown image after the leading `![`:
the regex `!\[([^\]]*)\]\(([^)]+)\)` takes the (maximal) bracket-free run
up to the first `]`, requires `(`, then the maximal paren-free non-empty run
up to the first `)`. -/
def matchTail (r : List Char) : Option (List Char × List Char × List Char) :=
  match splitUntil ']' r with
  | none => none
  | some (alt, t1) => matchParen alt t1

/-- Attempt to match the image regex at the head of the input, returning
`(alt, src, rest)` on success. -/
def matchImage : List Char → Option (List Char × List Char × List Char)
  | c1 :: c2 :: r => if c1 = '!' ∧ c2 = '[' then matchTail r else none
  | _ => none

/-- The replacement used by the rewriter's callback: prefix `src` with the
image prefix unless it already starts with `http`, `data:` or the prefix
itself, in which case the matched text is returned unchanged. -/
def rewriteSeg (P alt src : List Char) : List Char :=
  if !jsStartsWith ("http".data) src && !jsStartsWith ("data:".data) src
      && !jsStartsWith P src then
    '!' :: '[' :: (alt ++ ']' :: '(' :: (P ++ src ++ [')']))
  else
    '!' :: '[' :: (alt ++ ']' :: '(' :: (src ++ [')']))

/-- The global-regex replace loop: at each position try the image regex;
on success emit the rewritten segment and continue after the match, else
copy one character (fuelled; fuel is always the input length). -/
def scanGo (P : List Char) : Nat → List Char → List Char
  | 0, cs => cs
  | _ + 1, [] => []
  | f + 1, c :: cs =>
    match matchImage (c :: cs) with
    | none => c :: scanGo P f cs
    | some (alt, src, rest) => rewriteSeg P alt src ++ scanGo P f rest

/-- `markdown.replace(/!\[([^\]]*)\]\(([^)]+)\)/g, callback)`. -/
def scanImgs (P cs : List Char) : List Char := scanGo P cs.length cs

/-- `processMarkdownImages(markdown, imagePrefix)`; the source gives
`imagePrefix` the default value `"images/"`, and every call site uses that
value. -/
def processMarkdownImages (markdown imagePrefix : String) : String :=
  if markdown = "" then "" else ⟨scanImgs imagePrefix.data markdown.data⟩

/-- Relation between an input of the rewriter and the same text with the
image prefix `P` inserted after some opening parentheses (never directly
before a `)`): this is exactly how `scanImgs P` transforms its input. -/
inductive Ins (P : List Char) : List Char → List Char → Prop
  | nil : Ins P [] []
  | cons (c : Char) {t u : List Char} : Ins P t u → Ins P (c :: t) (c :: u)
  | ins {t u : List Char} (h : Ins P t u) (hne : t.head? ≠ some ')') :
      Ins P ('(' :: t) ('(' :: (P ++ u))

/-! ## Math protector (`extractLatexBlocks` / `restoreLatexAsSvg`) and HTML
generation -/

/-- Global literal replace (`String.prototype.replace` with a `/.../g`
pattern and a `$`-free replacement): scan left to right, replace every
non-overlapping occurrence, continue after each match (fuelled; fuel is
always the input length). -/
def replAllGo (pat rep : List Char) : Nat → List Char → List Char
  | 0, cs => cs
  | _ + 1, [] => []
  | f + 1, c :: cs =>
    if jsStartsWith pat (c :: cs) then
      rep ++ replAllGo pat rep f ((c :: cs).drop pat.length)
    else c :: replAllGo pat rep f cs

/-- `s.replace(/pat/g, rep)` for a literal pattern. -/
def replaceAllSub (s pat rep : String) : String :=
  ⟨replAllGo pat.data rep.data s.data.length s.data⟩

/-- `escapeXML(str)`: the five chained global replaces of the source. -/
def escapeXML (s : String) : String :=
  if s = "" then ""
  else
    replaceAllSub
      (replaceAllSub
        (replaceAllSub (replaceAllSub (replaceAllSub s "&" "&amp;") "<" "&lt;")
          ">" "&gt;")
        "\"" "&quot;")
      "\x27" "&apos;"

/-- `decodeHtmlEntities(str)`: the four chained global replaces of the
source (`&amp;`, `&lt;`, `&gt;`, `&quot;`). -/
def decodeHtmlEntities (s : String) : String :=
  replaceAllSub
    (replaceAllSub (replaceAllSub (replaceAllSub s "&amp;" "&") "&lt;" "<")
      "&gt;" ">")
    "&quot;" "\""

/-- A recorded math block: `{placeholder, latex, display}`. -/
structure MathBlock where
  placeholder : String
  latex : String
  display : Bool
deriving DecidableEq

/-- First occurrence of `$$` in the input: the part strictly before it and
the part strictly after it. -/
def findDD : List Char → Option (List Char × List Char)
  | [] => none
  | [_] => none
  | c :: d :: t =>
    if c = '$' ∧ d = '$' then some ([], t)
    else (findDD (d :: t)).map fun p => (c :: p.1, p.2)

/-- Lazy close for display math: the shortest non-empty content followed by
`$$` (the regex is `\$\$([\s\S]+?)\$\$`). -/
def findClose : List Char → Option (List Char × List Char)
  | [] => none
  | c0 :: r2 => (findDD r2).map fun p => (c0 :: p.1, p.2)

/-- Display-math pass of `extractLatexBlocks`: replace each `$$...$$` with
`%%LATEX_DISPLAY_<counter>%%`, recording the trimmed content. -/
def scanDisplayGo : Nat → Nat → List Char → List Char × List MathBlock × Nat
  | 0, counter, cs => (cs, [], counter)
  | _ + 1, counter, [] => ([], [], counter)
  | _ + 1, counter, [c] => ([c], [], counter)
  | f + 1, counter, c :: d :: t =>
    if c = '$' ∧ d = '$' then
      match findClose t with
      | some (content, after) =>
        let ph := "%%LATEX_DISPLAY_" ++ Nat.repr counter ++ "%%"
        let r := scanDisplayGo f (counter + 1) after
        (ph.data ++ r.1, ⟨ph, trimStr ⟨content⟩, true⟩ :: r.2.1, r.2.2)
      | none =>
        let r := scanDisplayGo f counter (d :: t)
        (c :: r.1, r.2.1, r.2.2)
    else
      let r := scanDisplayGo f counter (d :: t)
      (c :: r.1, r.2.1, r.2.2)

/-- Inline-math content: the maximal non-empty run without `$` or newline,
which must be followed by a closing `$` (the regex is
`(?<=\s|^)\$([^$\n]+)\$`). -/
def inlineContent (t : List Char) : Option (List Char × List Char) :=
  let run := t.takeWhile fun c => c != '$' && c != '\n'
  match t.drop run.length with
  | r0 :: after => if r0 = '$' ∧ run ≠ [] then some (run, after) else none
  | [] => none

/-- Inline-math pass of `extractLatexBlocks`: replace each whitespace- or
start-anchored `$...$` with `%%LATEX_INLINE_<counter>%%`.  `prevOk` tracks
whether the previous input character satisfies the lookbehind. -/
def scanInlineGo : Nat → Bool → Nat → List Char → List Char × List MathBlock × Nat
  | 0, _, counter, cs => (cs, [], counter)
  | _ + 1, _, counter, [] => ([], [], counter)
  | f + 1, prevOk, counter, c :: t =>
    if c = '$' ∧ prevOk then
      match inlineContent t with
      | some (content, after) =>
        let ph := "%%LATEX_INLINE_" ++ Nat.repr counter ++ "%%"
        let r := scanInlineGo f false (counter + 1) after
        (ph.data ++ r.1, ⟨ph, trimStr ⟨content⟩, false⟩ :: r.2.1, r.2.2)
      | none =>
        let r := scanInlineGo f (isJsWs c) counter t
        (c :: r.1, r.2.1, r.2.2)
    else
      let r := scanInlineGo f (isJsWs c) counter t
      (c :: r.1, r.2.1, r.2.2)

/-- `extractLatexBlocks(markdown)`: display pass, then inline pass on its
output (sharing the counter), blocks recorded in match order. -/
def extractLatexBlocks (markdown : String) : String × List MathBlock :=
  let d := scanDisplayGo markdown.data.length 0 markdown.data
  let i := scanInlineGo d.1.length true d.2.2 d.1
  (⟨i.1⟩, d.2.1 ++ i.2.1)

/-- `restoreLatexAsSvg(html, blocks)`: with no math engine the HTML is
returned unchanged (placeholders and all); with an engine, each block's
placeholder is replaced by the rendered SVG wrapper, or — when rendering
throws — by the dollar-delimited source rebuilt from the recorded latex,
via `String.prototype.replace` with a string replacement (so JavaScript
`$$`-substitution applies). -/
def restoreLatexAsSvg (engine : Option (String → Bool → Option String))
    (html : String) (blocks : List MathBlock) : String :=
  match engine with
  | none => html
  | some f =>
    blocks.foldl
      (fun h b =>
        match f (decodeHtmlEntities b.latex) b.display with
        | some svg =>
          let wrapper :=
            if b.display then "<div class=\"math-display\">" ++ svg ++ "</div>"
            else "<span class=\"math-inline\">" ++ svg ++ "</span>"
          jsReplaceFirst h b.placeholder wrapper
        | none =>
          let original :=
            if b.display then "$$" ++ b.latex ++ "$$" else "$" ++ b.latex ++ "$"
          jsReplaceFirst h b.placeholder original)
      html

/-- `latexToSvg(tex, display)` from the first pipeline variant: with no
MathJax return the dollar-delimited source verbatim; otherwise trim, decode
the three entities, render, and wrap — falling back to the dollar-delimited
source on a thrown exception.  Both fallbacks are template literals, so no
replacement-string substitution happens here. -/
def latexToSvg (engine : Option (String → Bool → Option String))
    (tex : String) (display : Bool) : String :=
  match engine with
  | none => if display then "$$" ++ tex ++ "$$" else "$" ++ tex ++ "$"
  | some f =>
    let decoded :=
      replaceAllSub (replaceAllSub (replaceAllSub (trimStr tex) "&amp;" "&")
        "&lt;" "<") "&gt;" ">"
    match f decoded display with
    | some svg =>
      if display then "<div class=\"math-display\">" ++ svg ++ "</div>"
      else "<span class=\"math-inline\">" ++ svg ++ "</span>"
    | none => if display then "$$" ++ tex ++ "$$" else "$" ++ tex ++ "$"

/-- Fixed document header of `generateHTML` up to the title text. -/
def htmlDocHead : String :=
  "<!DOCTYPE html>\n<html lang=\"en\">\n<head>\n  <meta charset=\"UTF-8\">\n  <meta name=\"viewport\" content=\"width=device-width, initial-scale=1.0\">\n  <title>"

/-- Fixed document part of `generateHTML` between the title and the body
content (the embedded stylesheet). -/
def htmlDocStyle : String :=
  "</title>\n  <style>\n    body \x7b\n      font-family: -apple-system, BlinkMacSystemFont, \"Segoe UI\", Roboto, sans-serif;\n      max-width: 800px;\n      margin: 0 auto;\n      padding: 2rem;\n      line-height: 1.6;\n    \x7d\n    img, svg \x7b max-width: 100%; height: auto; \x7d\n    pre \x7b background: #f5f5f5; padding: 1rem; overflow-x: auto; \x7d\n    code \x7b background: #f5f5f5; padding: 0.2em 0.4em; \x7d\n    table \x7b border-collapse: collapse; width: 100%; margin: 1rem 0; \x7d\n    th, td \x7b border: 1px solid #ddd; padding: 0.5rem; text-align: left; \x7d\n    th \x7b background: #f5f5f5; \x7d\n    hr \x7b margin: 2rem 0; border: none; border-top: 1px solid #ddd; \x7d\n    blockquote \x7b border-left: 4px solid #ddd; margin: 1rem 0; padding-left: 1rem; color: #666; \x7d\n    .math-display \x7b text-align: center; margin: 1rem 0; \x7d\n    .math-inline \x7b vertical-align: middle; \x7d\n    .math-inline svg, .math-display svg \x7b vertical-align: middle; \x7d\n  </style>\n</head>\n<body>\n"

/-- Fixed document footer of `generateHTML`. -/
def htmlDocFoot : String := "\n</body>\n</html>"

/-- `generateHTML(markdown, title)`: extract LaTeX blocks, run the markdown
renderer (`marked.parse`, an external collaborator passed as `render`),
restore the blocks, and wrap in the fixed document template. -/
def generateHTML (render : String → String)
    (engine : Option (String → Bool → Option String))
    (markdown : String) (title : String) : String :=
  let e := extractLatexBlocks markdown
  let htmlContent := restoreLatexAsSvg engine (render e.1) e.2
  htmlDocHead ++ escapeXML title ++ htmlDocStyle ++ htmlContent ++ htmlDocFoot

/-- Content of one entry of a produced archive. -/
inductive ZipContent where
  | text (s : String)
  | bin (bytes : List Nat)
deriving DecidableEq

/-- One `zip.file(name, content, options)` call: JSZip serializes entries in
insertion order, and an explicit `{compression: "STORE"}` option is recorded
as `some "STORE"`. -/
structure ZipEntry where
  name : String
  content : ZipContent
  compression : Option String
deriving DecidableEq

/-- `Array.prototype.join(sep)`. -/
def joinStr (sep : String) : List String → String
  | [] => ""
  | [s] => s
  | s :: rest => s ++ sep ++ joinStr sep rest

/-- `id.replace(/[^a-z0-9]/gi, "_")`. -/
def sanitizeId (s : String) : String :=
  ⟨s.data.map fun c => if c.isAlphanum then c else '_'⟩

/-- `generateEPUB(markdown, images, title)`.  The external inputs
`crypto.randomUUID()` and the truncated `new Date().toISOString()` are
passed as `uuid` and `timestamp`; the markdown renderer and math engine are
passed as in `generateHTML`.  Image data is decoded with `base64ToBytes`,
whose failure (an `atob` exception) aborts EPUB generation, hence the
`Option` result.  The result is the ordered list of `zip.file` calls. -/
def generateEPUB (render : String → String)
    (engine : Option (String → Bool → Option String))
    (uuid timestamp : String) (markdown : String)
    (images : List (String × ImageEntry)) (title : String) :
    Option (List ZipEntry) :=
  let escapedTitle := escapeXML title
  let imageManifest := images.map fun p =>
    let mimeType :=
      if p.2.format = "png" then "image/png"
      else if p.2.format = "gif" then "image/gif"
      else if p.2.format = "webp" then "image/webp"
      else "image/jpeg"
    "    <item id=\"" ++ sanitizeId p.1 ++ "\" href=\"images/" ++ p.1
      ++ "\" media-type=\"" ++ mimeType ++ "\"/>"
  let contentOpf :=
    "<?xml version=\"1.0\" encoding=\"UTF-8\"?>\n<package xmlns=\"http://www.idpf.org/2007/opf\" version=\"3.0\" unique-identifier=\"BookId\">\n  <metadata xmlns:dc=\"http://purl.org/dc/elements/1.1/\">\n    <dc:identifier id=\"BookId\">urn:uuid:"
      ++ uuid ++ "</dc:identifier>\n    <dc:title>" ++ escapedTitle
      ++ "</dc:title>\n    <dc:language>en</dc:language>\n    <dc:creator>OCR EPUB</dc:creator>\n    <meta property=\"dcterms:modified\">"
      ++ timestamp
      ++ "</meta>\n  </metadata>\n  <manifest>\n    <item id=\"content\" href=\"content.xhtml\" media-type=\"application/xhtml+xml\"/>\n    <item id=\"nav\" href=\"nav.xhtml\" media-type=\"application/xhtml+xml\" properties=\"nav\"/>\n"
      ++ joinStr "\n" imageManifest
      ++ "\n  </manifest>\n  <spine>\n    <itemref idref=\"content\"/>\n  </spine>\n</package>"
  let navXhtml :=
    "<?xml version=\"1.0\" encoding=\"UTF-8\"?>\n<!DOCTYPE html>\n<html xmlns=\"http://www.w3.org/1999/xhtml\" xmlns:epub=\"http://www.idpf.org/2007/ops\">\n<head>\n  <title>Navigation</title>\n</head>\n<body>\n  <nav epub:type=\"toc\">\n    <h1>Contents</h1>\n    <ol>\n      <li><a href=\"content.xhtml\">"
      ++ escapedTitle ++ "</a></li>\n    </ol>\n  </nav>\n</body>\n</html>"
  let processedMarkdown := processMarkdownImages markdown "images/"
  let e := extractLatexBlocks processedMarkdown
  let htmlContent := restoreLatexAsSvg engine (render e.1) e.2
  let contentXhtml :=
    "<?xml version=\"1.0\" encoding=\"UTF-8\"?>\n<!DOCTYPE html>\n<html xmlns=\"http://www.w3.org/1999/xhtml\">\n<head>\n  <title>"
      ++ escapedTitle
      ++ "</title>\n  <style>\n    body \x7b font-family: serif; margin: 1em; line-height: 1.6; \x7d\n    img, svg \x7b max-width: 100%; height: auto; \x7d\n    pre \x7b background: #f5f5f5; padding: 1em; overflow-x: auto; white-space: pre-wrap; \x7d\n    code \x7b background: #f5f5f5; padding: 0.2em; \x7d\n    table \x7b border-collapse: collapse; width: 100%; \x7d\n    th, td \x7b border: 1px solid #999; padding: 0.5em; \x7d\n    .math-display \x7b text-align: center; margin: 1em 0; \x7d\n    .math-inline \x7b vertical-align: middle; \x7d\n    .math-inline svg, .math-display svg \x7b vertical-align: middle; \x7d\n  </style>\n</head>\n<body>\n"
      ++ htmlContent ++ "\n</body>\n</html>"
  match images.mapM (fun p =>
      (base64ToBytes p.2.data).map fun bytes =>
        (⟨"OEBPS/images/" ++ p.1, ZipContent.bin bytes, none⟩ : ZipEntry)) with
  | none => none
  | some imageEntries =>
    some
      ([⟨"mimetype", ZipContent.text "application/epub+zip", some "STORE"⟩,
        ⟨"META-INF/container.xml", ZipContent.text
          "<?xml version=\"1.0\" encoding=\"UTF-8\"?>\n<container version=\"1.0\" xmlns=\"urn:oasis:names:tc:opendocument:xmlns:container\">\n  <rootfiles>\n    <rootfile full-path=\"OEBPS/content.opf\" media-type=\"application/oebps-package+xml\"/>\n  </rootfiles>\n</container>",
          none⟩,
        ⟨"OEBPS/content.opf", ZipContent.text contentOpf, none⟩,
        ⟨"OEBPS/nav.xhtml", ZipContent.text navXhtml, none⟩,
        ⟨"OEBPS/content.xhtml", ZipContent.text contentXhtml, none⟩]
        ++ imageEntries)

/-! ## Theorems -/

theorem jsStartsWith_append (p t : List Char) : jsStartsWith p (p ++ t) = true := by
  induction p with
  | nil => rfl
  | cons c cs ih => simp [jsStartsWith, ih]

theorem jsStartsWith_length {p cs : List Char} (h : jsStartsWith p cs = true) :
    p.length ≤ cs.length := by
  induction p generalizing cs with
  | nil => exact Nat.zero_le _
  | cons x xs ih =>
    cases cs with
    | nil => exact absurd h (by simp [jsStartsWith])
    | cons c cs =>
      simp only [jsStartsWith, Bool.and_eq_true] at h
      simpa [Nat.succ_le_succ_iff] using ih h.2

/-- A prefix match determines the corresponding initial segment. -/
theorem jsStartsWith_iff (p cs : List Char) :
    jsStartsWith p cs = true ↔ ∃ t, cs = p ++ t := by
  induction p generalizing cs with
  | nil => simp [jsStartsWith]
  | cons x xs ih =>
    cases cs with
    | nil => simp [jsStartsWith]
    | cons c cs =>
      simp only [jsStartsWith, Bool.and_eq_true, beq_iff_eq, ih, List.cons_append,
        List.cons.injEq]
      constructor
      · rintro ⟨rfl, t, rfl⟩; exact ⟨t, rfl, rfl⟩
      · rintro ⟨t, rfl, rfl⟩; exact ⟨rfl, t, rfl⟩

theorem getSubst_of_no_dollar (m b a : List Char) :
    ∀ rep : List Char, '$' ∉ rep → getSubst m b a rep = rep := by
  intro rep h
  induction rep with
  | nil => rfl
  | cons c rest ih =>
    simp only [List.mem_cons, not_or] at h
    have hc : ¬c = '$' := fun hh => h.1 hh.symm
    rw [getSubst.eq_def]
    simp only [if_neg hc, ih h.2]

theorem jsSplit_ne_nil (sep : Char) (cs : List Char) : jsSplit sep cs ≠ [] := by
  cases cs with
  | nil => simp [jsSplit]
  | cons c rest =>
    simp only [jsSplit]
    split
    · simp
    · split <;> simp

theorem splitUntil_eq_none {c : Char} {l : List Char} :
    splitUntil c l = none ↔ c ∉ l := by
  induction l with
  | nil => simp [splitUntil]
  | cons d t ih =>
    simp only [splitUntil]
    by_cases h : d = c
    · simp [h]
    · simp [h, ih, Ne.symm h]

theorem splitUntil_eq_some {c : Char} {l a t : List Char}
    (h : splitUntil c l = some (a, t)) : l = a ++ c :: t ∧ c ∉ a := by
  induction l generalizing a t with
  | nil => exact absurd h (by simp [splitUntil])
  | cons d l ih =>
    simp only [splitUntil] at h
    by_cases hd : d = c
    · rw [if_pos hd] at h
      obtain ⟨h1, h2⟩ := Prod.mk.injEq .. ▸ Option.some.injEq .. ▸ h
      subst hd
      constructor
      · rw [← h1, ← h2]; rfl
      · rw [← h1]; simp
    · rw [if_neg hd] at h
      cases hs : splitUntil c l with
      | none => rw [hs] at h; exact absurd h (by simp)
      | some p =>
        obtain ⟨a0, t0⟩ := p
        rw [hs] at h
        simp only [Option.map_some', Option.some.injEq, Prod.mk.injEq] at h
        obtain ⟨h1, h2⟩ := h
        obtain ⟨he, hm⟩ := ih (h2 ▸ hs)
        subst h1
        refine ⟨by rw [he]; rfl, ?_⟩
        simp only [List.mem_cons, not_or]
        exact ⟨fun hc => hd hc.symm, hm⟩

theorem splitUntil_append {c : Char} {a : List Char} (t : List Char) (ha : c ∉ a) :
    splitUntil c (a ++ c :: t) = some (a, t) := by
  induction a with
  | nil => simp [splitUntil]
  | cons d a ih =>
    simp only [List.mem_cons, not_or] at ha
    have hd : ¬d = c := fun h => ha.1 h.symm
    simp [splitUntil, hd, ih ha.2]

theorem splitUntil_length {c : Char} {l a t : List Char}
    (h : splitUntil c l = some (a, t)) : t.length < l.length := by
  have := (splitUntil_eq_some h).1
  subst this
  simp
  omega

example : fileToBase64 [72, 101, 108, 108, 111, 44, 32, 87, 111, 114, 108, 100, 33]
    = "SGVsbG8sIFdvcmxkIQ==" := by decide

example : base64ToBytes "SGVsbG8sIFdvcmxkIQ==" =
    some [72, 101, 108, 108, 111, 44, 32, 87, 111, 114, 108, 100, 33] := by decide

example : base64ToBytes "data:image/png;base64,QkM=" = some [66, 67] := by decide

theorem encChar_mem (n : Nat) : encChar n ∈ b64Table := by
  unfold encChar List.getD
  cases h : b64Table.get? n with
  | none => exact (by decide : 'A' ∈ b64Table)
  | some c => exact List.get?_mem h

theorem encChar_not_ws (n : Nat) : isB64Ws (encChar n) = false := by
  have := encChar_mem n
  revert this
  have : ∀ c ∈ b64Table, isB64Ws c = false := by decide
  exact this _

theorem encChar_ne_eq (n : Nat) : encChar n ≠ '=' := by
  have := encChar_mem n
  revert this
  have : ∀ c ∈ b64Table, c ≠ '=' := by decide
  exact this _

theorem encChar_ne_comma (n : Nat) : encChar n ≠ ',' := by
  have := encChar_mem n
  revert this
  have : ∀ c ∈ b64Table, c ≠ ',' := by decide
  exact this _

theorem decChar_encChar (n : Nat) (h : n < 64) : decChar (encChar n) = some n := by
  have : ∀ m < 64, decChar (encChar m) = some m := by decide
  exact this n h

theorem encodeTriples_length_mod (bs : List Nat) :
    (encodeTriples bs).length % 4 = 0 := by
  induction bs using encodeTriples.induct with
  | case1 => simp [encodeTriples]
  | case2 a => simp [encodeTriples]
  | case3 a b => simp [encodeTriples]
  | case4 a b c rest ih =>
    simp only [encodeTriples, List.length_cons]
    omega

theorem encodeTriples_chars (bs : List Nat) :
    ∀ c ∈ encodeTriples bs, c ∈ b64Table ∨ c = '=' := by
  induction bs using encodeTriples.induct with
  | case1 => intro c hc; exact absurd hc (by simp [encodeTriples])
  | case2 a =>
    intro c hc
    simp only [encodeTriples, List.mem_cons, List.mem_singleton] at hc
    rcases hc with rfl | rfl | rfl | h
    · exact Or.inl (encChar_mem _)
    · exact Or.inl (encChar_mem _)
    · exact Or.inr rfl
    · simp at h; exact Or.inr h
  | case3 a b =>
    intro c hc
    simp only [encodeTriples, List.mem_cons, List.mem_singleton] at hc
    rcases hc with rfl | rfl | rfl | h
    · exact Or.inl (encChar_mem _)
    · exact Or.inl (encChar_mem _)
    · exact Or.inl (encChar_mem _)
    · simp at h; exact Or.inr h
  | case4 a b c rest ih =>
    intro x hx
    simp only [encodeTriples, List.mem_cons] at hx
    rcases hx with rfl | rfl | rfl | rfl | h
    · exact Or.inl (encChar_mem _)
    · exact Or.inl (encChar_mem _)
    · exact Or.inl (encChar_mem _)
    · exact Or.inl (encChar_mem _)
    · exact ih _ h

theorem padLen_le_two (r : List Char) : padLen r ≤ 2 := by
  unfold padLen
  split
  · split <;> omega
  · omega

theorem padLen_append {w : List Char} (l : List Char) (h : 2 ≤ w.length) :
    padLen (w ++ l) = padLen w := by
  obtain ⟨x, y, w2, rfl⟩ : ∃ x y w2, w = x :: y :: w2 := by
    cases w with
    | nil => simp at h
    | cons x w1 =>
      cases w1 with
      | nil => simp at h
      | cons y w2 => exact ⟨x, y, w2, rfl⟩
  simp [padLen]

theorem stripPad_encodeTriples_append (e1 e2 e3 e4 : Char) {w : List Char}
    (hw : 4 ≤ w.length) (hmod : w.length % 4 = 0) :
    stripPad (e1 :: e2 :: e3 :: e4 :: w) = e1 :: e2 :: e3 :: e4 :: stripPad w := by
  have hpad : padLen (e1 :: e2 :: e3 :: e4 :: w).reverse = padLen w.reverse := by
    have : (e1 :: e2 :: e3 :: e4 :: w).reverse = w.reverse ++ [e4, e3, e2, e1] := by
      simp
    rw [this, padLen_append _ (by simp; omega)]
  have hlen : (e1 :: e2 :: e3 :: e4 :: w).length = 4 + w.length := by simp; omega
  have hp2 : padLen w.reverse ≤ 2 := padLen_le_two _
  unfold stripPad
  rw [hpad, hlen]
  have h1 : (4 + w.length) % 4 == 0 := by simp [Nat.add_mod_left, hmod]
  have h2 : (w.length % 4 == 0) = true := by simp [hmod]
  rw [if_pos h1, if_pos h2]
  have : 4 + w.length - padLen w.reverse = 4 + (w.length - padLen w.reverse) := by omega
  rw [this]
  have := @List.take_append Char [e1, e2, e3, e4] w (w.length - padLen w.reverse)
  simpa using this

theorem encodeTriples_length_ge {bs : List Nat} (h : bs ≠ []) :
    4 ≤ (encodeTriples bs).length := by
  match bs with
  | [] => exact absurd rfl h
  | [a] => simp [encodeTriples]
  | [a, b] => simp [encodeTriples]
  | a :: b :: c :: rest => simp [encodeTriples]

theorem decodeQuads_stripPad_encodeTriples (bs : List Nat) :
    (∀ x ∈ bs, x < 256) → decodeQuads (stripPad (encodeTriples bs)) = some bs := by
  induction bs using encodeTriples.induct with
  | case1 => intro _; rfl
  | case2 a =>
    intro h
    have ha : a < 256 := h a (by simp)
    have hstrip : stripPad (encodeTriples [a]) =
        [encChar (a / 4), encChar (a % 4 * 16)] := by
      simp [encodeTriples, stripPad, padLen]
    rw [hstrip]
    simp only [decodeQuads, decChar_encChar _ (by omega : a / 4 < 64),
      decChar_encChar _ (by omega : a % 4 * 16 < 64), Option.bind_eq_bind,
      Option.some_bind, Option.some.injEq, List.cons.injEq, and_true]
    omega
  | case3 a b =>
    intro h
    have ha : a < 256 := h a (by simp)
    have hb : b < 256 := h b (by simp)
    have hstrip : stripPad (encodeTriples [a, b]) =
        [encChar (a / 4), encChar (a % 4 * 16 + b / 16), encChar (b % 16 * 4)] := by
      have hne : (some (encChar (b % 16 * 4)) = some '=') = False := by
        simp [encChar_ne_eq]
      simp [encodeTriples, stripPad, padLen, hne]
    rw [hstrip]
    simp only [decodeQuads, decChar_encChar _ (by omega : a / 4 < 64),
      decChar_encChar _ (by omega : a % 4 * 16 + b / 16 < 64),
      decChar_encChar _ (by omega : b % 16 * 4 < 64), Option.bind_eq_bind,
      Option.some_bind, Option.some.injEq, List.cons.injEq, and_true]
    refine ⟨by omega, by omega⟩
  | case4 a b c rest ih =>
    intro h
    have ha : a < 256 := h a (by simp)
    have hb : b < 256 := h b (by simp)
    have hc : c < 256 := h c (by simp)
    have hrest : ∀ x ∈ rest, x < 256 := fun x hx => h x (by simp [hx])
    have hq := ih hrest
    by_cases hr : rest = []
    · subst hr
      have hstrip : stripPad (encodeTriples [a, b, c]) =
          [encChar (a / 4), encChar (a % 4 * 16 + b / 16),
           encChar (b % 16 * 4 + c / 64), encChar (c % 64)] := by
        have hne : (some (encChar (c % 64)) = some '=') = False := by
          simp [encChar_ne_eq]
        simp [encodeTriples, stripPad, padLen, hne]
      rw [hstrip]
      simp only [decodeQuads, decChar_encChar _ (by omega : a / 4 < 64),
        decChar_encChar _ (by omega : a % 4 * 16 + b / 16 < 64),
        decChar_encChar _ (by omega : b % 16 * 4 + c / 64 < 64),
        decChar_encChar _ (by omega : c % 64 < 64), Option.bind_eq_bind,
        Option.some_bind, Option.some.injEq, List.cons.injEq, and_true]
      refine ⟨by omega, by omega, by omega⟩
    · have henc : encodeTriples (a :: b :: c :: rest) =
          encChar (a / 4) :: encChar (a % 4 * 16 + b / 16)
            :: encChar (b % 16 * 4 + c / 64) :: encChar (c % 64)
            :: encodeTriples rest := by
        simp [encodeTriples]
      rw [henc, stripPad_encodeTriples_append _ _ _ _ (encodeTriples_length_ge hr)
        (encodeTriples_length_mod rest)]
      simp only [decodeQuads, decChar_encChar _ (by omega : a / 4 < 64),
        decChar_encChar _ (by omega : a % 4 * 16 + b / 16 < 64),
        decChar_encChar _ (by omega : b % 16 * 4 + c / 64 < 64),
        decChar_encChar _ (by omega : c % 64 < 64), Option.bind_eq_bind,
        Option.some_bind, hq, Option.some.injEq, List.cons.injEq]
      refine ⟨by omega, by omega, by omega, trivial⟩

theorem encodeTriples_filter_ws (bs : List Nat) :
    (encodeTriples bs).filter (fun c => !isB64Ws c) = encodeTriples bs := by
  rw [List.filter_eq_self]
  intro c hc
  rcases encodeTriples_chars bs c hc with hm | rfl
  · have : ∀ x ∈ b64Table, isB64Ws x = false := by decide
    simp [this c hm]
  · decide

theorem encodeTriples_no_comma (bs : List Nat) : ',' ∉ encodeTriples bs := by
  intro hmem
  rcases encodeTriples_chars bs ',' hmem with hm | he
  · exact absurd hm (by decide)
  · exact absurd he (by decide)

theorem stripPad_length_mod (cs : List Char) (h : cs.length % 4 = 0) :
    (stripPad cs).length % 4 ≠ 1 := by
  unfold stripPad
  rw [if_pos (by simp [h])]
  have h1 := padLen_le_two cs.reverse
  rcases Nat.eq_zero_or_pos cs.length with h0 | hpos
  · simp [h0]
  · have h4 : 4 ≤ cs.length := by omega
    simp only [List.length_take]
    omega

/-- Round trip at the `atob` level: decoding the `btoa` encoding of any
byte sequence recovers the bytes. -/
theorem atobList_encodeTriples (bs : List Nat) (h : ∀ x ∈ bs, x < 256) :
    atobList (encodeTriples bs) = some bs := by
  unfold atobList
  rw [encodeTriples_filter_ws]
  rw [if_neg (by simpa using stripPad_length_mod _ (encodeTriples_length_mod bs))]
  exact decodeQuads_stripPad_encodeTriples bs h

/-- Claim C8: base64 round-trip.  For every byte sequence `b` (bytes are
values below 256), `base64ToBytes (fileToBase64 b)` reproduces `b`
exactly. -/
theorem claim_c8 (bytes : List Nat) (h : ∀ x ∈ bytes, x < 256) :
    base64ToBytes (fileToBase64 bytes) = some bytes := by
  unfold base64ToBytes fileToBase64 btoa
  have hnc : (encodeTriples bytes).contains ',' = false := by
    simpa using encodeTriples_no_comma bytes
  simp only [hnc]
  exact atobList_encodeTriples bytes h

/-- Witness for C8 at the concrete byte sequence of `"Hello, World!"`
(the example asserted by the repository's own test suite). -/
theorem claim_c8_witness :
    base64ToBytes (fileToBase64
        [72, 101, 108, 108, 111, 44, 32, 87, 111, 114, 108, 100, 33]) =
      some [72, 101, 108, 108, 111, 44, 32, 87, 111, 114, 108, 100, 33] :=
  claim_c8 _ (by decide)

theorem jsSplit_getD_zero (sep : Char) (cs : List Char) :
    (jsSplit sep cs).getD 0 [] = cs.takeWhile fun c => c != sep := by
  induction cs with
  | nil => rfl
  | cons c rest ih =>
    by_cases hc : c = sep
    · subst hc
      simp [jsSplit, List.takeWhile]
    · simp only [jsSplit, if_neg hc]
      cases hj : jsSplit sep rest with
      | nil => exact absurd hj (jsSplit_ne_nil sep rest)
      | cons h t =>
        rw [hj] at ih
        simp only [List.getD, List.getElem?_cons_zero, Option.getD_some] at ih
        have hne : (c != sep) = true := by simp [hc]
        simp [List.takeWhile, hne, hc, ← ih]

theorem jsSplit_getD_one (sep : Char) (cs : List Char) (hmem : sep ∈ cs) :
    (jsSplit sep cs).getD 1 [] =
      (match splitUntil sep cs with
       | some p => p.2.takeWhile fun c => c != sep
       | none => cs) := by
  induction cs with
  | nil => exact absurd hmem (by simp)
  | cons c rest ih =>
    by_cases hc : c = sep
    · subst hc
      simp only [jsSplit, if_pos rfl, splitUntil]
      simpa using jsSplit_getD_zero c rest
    · have hrest : sep ∈ rest := by
        rcases List.mem_cons.mp hmem with h | h
        · exact absurd h.symm hc
        · exact h
      simp only [jsSplit, if_neg hc]
      cases hj : jsSplit sep rest with
      | nil => exact absurd hj (jsSplit_ne_nil sep rest)
      | cons h t =>
        have := ih hrest
        rw [hj] at this
        have hsp : splitUntil sep (c :: rest) =
            (splitUntil sep rest).map fun p => (c :: p.1, p.2) := by
          simp [splitUntil, hc]
        rw [hsp]
        cases hs : splitUntil sep rest with
        | none => exact absurd (splitUntil_eq_none.mp hs) (by simp [hrest])
        | some p =>
          rw [hs] at this
          simpa using this

/-- Claim C10 (amended): what `base64ToBytes` decodes is the portion of the
input strictly between the first comma and the next comma after it — the
second comma-separated segment — not everything after the first comma; for
an input without a comma, the whole string is decoded. -/
theorem claim_c10 (s : String) :
    base64ToBytes s = atobList (betweenFirstCommas s.data) := by
  unfold base64ToBytes betweenFirstCommas
  by_cases hmem : ',' ∈ s.data
  · have hc : s.data.contains ',' = true := by simpa using hmem
    simp only [hc, if_pos]
    cases hs : splitUntil ',' s.data with
    | none => exact absurd (splitUntil_eq_none.mp hs) (by simp [hmem])
    | some p =>
      have := jsSplit_getD_one ',' s.data hmem
      rw [hs] at this
      rw [this]
  · have hc : s.data.contains ',' = false := by simpa using hmem
    rw [splitUntil_eq_none.mpr hmem]
    simp [hc, hmem]

/-- Counterexample for C10 as stated: on `"QQ==,QkM=,RA=="` the code decodes
only the second segment `"QkM="` (bytes of `"BC"`), while decoding the
portion after the first comma, `"QkM=,RA=="`, would fail (in a browser,
`atob` throws), so the claim "only the portion after the first comma is
base64-decoded" does not describe the code. -/
theorem claim_c10_counterexample :
    base64ToBytes "QQ==,QkM=,RA==" = some [66, 67] ∧
    ((splitUntil ',' ("QQ==,QkM=,RA==".data)).map Prod.snd).getD [] =
      "QkM=,RA==".data ∧
    atobList ("QkM=,RA==".data) = none := by
  refine ⟨by decide, by decide, by decide⟩

example :
    combineMarkdown ⟨some [⟨1, some "B", none, none⟩, ⟨0, some "A", none, none⟩]⟩
      = "A\n\n---\n\nB" := by decide

example :
    inlineTableContent "See [tbl-0.md](tbl-0.md)." (some [⟨some "tbl-0.md", some "| a | b |"⟩])
      = "See | a | b |." := by decide

example :
    inlineTableContent "[t](t) [t](t)" (some [⟨some "t", some "C"⟩]) = "C [t](t)" := by
  decide

theorem filter_orderedInsert_pos (n : Int) (a : Page) (ha : a.index = n)
    (l : List Page) :
    (List.orderedInsert pageLe a l).filter (fun p => p.index == n)
      = a :: l.filter fun p => p.index == n := by
  induction l with
  | nil => simp [ha]
  | cons b l ih =>
    by_cases hab : pageLe a b
    · simp only [List.orderedInsert, if_pos hab]
      simp [ha]
    · have hb : (b.index == n) = false := by
        have : b.index < a.index := by
          unfold pageLe at hab
          omega
        simp only [beq_eq_false_iff_ne, ne_eq]
        omega
      simp only [List.orderedInsert, if_neg hab, List.filter_cons, hb, ih]
      simp

theorem filter_orderedInsert_neg (n : Int) (a : Page) (ha : a.index ≠ n)
    (l : List Page) :
    (List.orderedInsert pageLe a l).filter (fun p => p.index == n)
      = l.filter fun p => p.index == n := by
  have hafalse : (a.index == n) = false := by simpa using ha
  induction l with
  | nil => simp [hafalse]
  | cons b l ih =>
    by_cases hab : pageLe a b
    · simp only [List.orderedInsert, if_pos hab]
      simp [List.filter_cons, hafalse]
    · simp only [List.orderedInsert, if_neg hab, List.filter_cons, ih]

theorem sortPages_filter (ps : List Page) (n : Int) :
    (sortPages ps).filter (fun p => p.index == n)
      = ps.filter fun p => p.index == n := by
  unfold sortPages
  induction ps with
  | nil => rfl
  | cons p ps ih =>
    simp only [List.insertionSort]
    by_cases hp : p.index = n
    · rw [filter_orderedInsert_pos n p hp _, ih, List.filter_cons,
        if_pos (by simpa using hp)]
    · rw [filter_orderedInsert_neg n p hp _, ih, List.filter_cons]
      simp [hp]

/-- Claim C7: `combineMarkdown` orders pages by `index` ascending with a
stable sort (the sorted list is a permutation, sorted by `index`, and
preserves the original relative order of pages with equal `index`), not by
arrival order; in particular on pages `[{index 1, "B"}, {index 0, "A"}]`
the result is `"A"`, separator, `"B"`. -/
theorem claim_c7 :
    (∀ ps : List Page, List.Sorted pageLe (sortPages ps)) ∧
    (∀ ps : List Page, List.Perm (sortPages ps) ps) ∧
    (∀ (ps : List Page) (n : Int),
      (sortPages ps).filter (fun p => p.index == n)
        = ps.filter fun p => p.index == n) ∧
    combineMarkdown ⟨some [⟨1, some "B", none, none⟩, ⟨0, some "A", none, none⟩]⟩
      = "A" ++ pageSep ++ "B" := by
  refine ⟨fun ps => List.sorted_insertionSort pageLe ps,
    fun ps => List.perm_insertionSort pageLe ps,
    sortPages_filter, by decide⟩

/-- Claim C9: `combineMarkdown` mutates its input: whenever the pages array
is present and non-empty, the caller's `OcrResult` after the call carries
the pages stable-sorted by `index` in place of the original order; on the
concrete two-page example the input's array really is reordered. -/
theorem claim_c9 :
    (∀ (ocr : OcrResult) (ps : List Page), ocr.pages = some ps → ps ≠ [] →
      (combineMarkdownState ocr).2 = ⟨some (sortPages ps)⟩) ∧
    (combineMarkdownState
        ⟨some [⟨1, some "B", none, none⟩, ⟨0, some "A", none, none⟩]⟩).2.pages
      = some [⟨0, some "A", none, none⟩, ⟨1, some "B", none, none⟩] ∧
    (combineMarkdownState
        ⟨some [⟨1, some "B", none, none⟩, ⟨0, some "A", none, none⟩]⟩).2.pages
      ≠ (⟨some [⟨1, some "B", none, none⟩, ⟨0, some "A", none, none⟩]⟩ :
          OcrResult).pages := by
  refine ⟨?_, by decide, by decide⟩
  intro ocr ps h hne
  obtain ⟨pages⟩ := ocr
  simp only at h
  subst h
  cases ps with
  | nil => exact absurd rfl hne
  | cons p ps => rfl

/-- Witness for C9: the general mutation statement applied to the concrete
two-page example. -/
theorem claim_c9_witness :
    (combineMarkdownState
        ⟨some [⟨1, some "B", none, none⟩, ⟨0, some "A", none, none⟩]⟩).2
      = ⟨some (sortPages [⟨1, some "B", none, none⟩, ⟨0, some "A", none, none⟩])⟩ :=
  claim_c9.1 _ _ rfl (by decide)

theorem replFirstGo_append (pat rep b : List Char) :
    ∀ (a acc : List Char),
      (∀ i < a.length, jsStartsWith pat ((a ++ pat ++ b).drop i) = false) →
      replFirstGo pat rep acc (a ++ pat ++ b)
        = acc.reverse ++ a ++ getSubst pat (acc.reverse ++ a) b rep ++ b := by
  intro a
  induction a with
  | nil =>
    intro acc _
    simp only [List.nil_append, List.append_nil]
    cases hpb : pat ++ b with
    | nil =>
      obtain ⟨hp, hb⟩ := List.append_eq_nil.mp hpb
      subst hp; subst hb
      simp [replFirstGo, jsStartsWith]
    | cons c rest =>
      rw [replFirstGo]
      rw [← hpb, if_pos (jsStartsWith_append pat b)]
      rw [List.drop_left]
  | cons c a2 ih =>
    intro acc hno
    have h0 : jsStartsWith pat ((c :: a2) ++ pat ++ b) = false := by
      have := hno 0 (by simp)
      simpa using this
    rw [List.cons_append, List.cons_append, replFirstGo,
      if_neg (by rw [← List.cons_append, ← List.cons_append, h0]; simp)]
    have hsh : ∀ i < a2.length, jsStartsWith pat ((a2 ++ pat ++ b).drop i) = false := by
      intro i hi
      have := hno (i + 1) (by simp; omega)
      simpa using this
    rw [ih (c :: acc) hsh]
    simp

/-- Claim C2 (amended): for a table entry with truthy `id` and truthy
`content`, `inlineTableContent` replaces the FIRST literal occurrence of the
placeholder `[id](id)` with the content (inserted verbatim when it contains
no `$`), and leaves the rest of the page — including any later occurrence of
the same placeholder — unchanged. -/
theorem claim_c2 (a b i c : String) (hi : i ≠ "") (hc : c ≠ "")
    (hd : '$' ∉ c.data)
    (hno : ∀ k < a.data.length,
      jsStartsWith ("[" ++ i ++ "](" ++ i ++ ")").data
        ((a.data ++ ("[" ++ i ++ "](" ++ i ++ ")").data ++ b.data).drop k) = false) :
    inlineTableContent (a ++ ("[" ++ i ++ "](" ++ i ++ ")") ++ b)
        (some [⟨some i, some c⟩])
      = a ++ c ++ b := by
  set ph : String := "[" ++ i ++ "](" ++ i ++ ")" with hph
  have hphdata : ph.data = '[' :: (i.data ++ ']' :: '(' :: i.data ++ [')']) := by
    rw [hph]
    simp [String.data_append]
  have hmdata : (a ++ ph ++ b).data = a.data ++ ph.data ++ b.data := by
    simp [String.data_append]
  have hmne : (a ++ ph ++ b) ≠ "" := by
    intro hcon
    have : (a ++ ph ++ b).data = [] := by rw [hcon]
    rw [hmdata, hphdata] at this
    simp at this
  unfold inlineTableContent
  rw [if_neg hmne]
  simp only [List.foldl_cons, List.foldl_nil, truthyStr, if_neg hi, if_neg hc]
  unfold jsReplaceFirst
  rw [hmdata, replFirstGo_append ph.data c.data b.data a.data [] hno,
    getSubst_of_no_dollar _ _ _ _ hd]
  have : a.data ++ c.data ++ b.data = (a ++ c ++ b).data := by
    simp [String.data_append]
  simp only [List.reverse_nil, List.nil_append, this]

/-- Witness for C2 at `"x [t](t) y"` with table `{id: "t", content: "C"}`. -/
theorem claim_c2_witness :
    inlineTableContent ("x " ++ ("[" ++ "t" ++ "](" ++ "t" ++ ")") ++ " y")
        (some [⟨some "t", some "C"⟩])
      = "x " ++ "C" ++ " y" :=
  claim_c2 "x " " y" "t" "C" (by decide) (by decide) (by decide) (by decide)

/-- Counterexample for C2 as stated: with markdown `"[t](t) [t](t)"` and
table `{id: "t", content: "C"}`, only the first occurrence is replaced
(`String.prototype.replace` with a string pattern replaces one occurrence),
so the output still contains the placeholder link. -/
theorem claim_c2_counterexample :
    inlineTableContent "[t](t) [t](t)" (some [⟨some "t", some "C"⟩]) = "C [t](t)" ∧
    containsSub ("[t](t)".data)
      ((inlineTableContent "[t](t) [t](t)" (some [⟨some "t", some "C"⟩])).data)
      = true := by
  refine ⟨by decide, by decide⟩

theorem extractImages_inner_filter (acc : List (String × ImageEntry))
    (imgs : List ImageRef) :
    imgs.foldl
        (fun images img =>
          match effId img, truthyStr img.image_base64 with
          | some i, some d => mapSet images i ⟨d, splitPop i⟩
          | _, _ => images)
        acc
      = (imgs.filter validImg).foldl
          (fun images img =>
            match effId img, truthyStr img.image_base64 with
            | some i, some d => mapSet images i ⟨d, splitPop i⟩
            | _, _ => images)
          acc := by
  induction imgs generalizing acc with
  | nil => rfl
  | cons img imgs ih =>
    by_cases hv : validImg img = true
    · rw [List.filter_cons_of_pos hv]
      simp only [List.foldl_cons]
      exact ih _
    · rw [List.filter_cons_of_neg (by simpa using hv)]
      simp only [List.foldl_cons]
      unfold validImg at hv
      rw [Bool.and_eq_true] at hv
      have : (match effId img, truthyStr img.image_base64 with
          | some i, some d => mapSet acc i ⟨d, splitPop i⟩
          | _, _ => acc) = acc := by
        cases he : effId img with
        | none => cases truthyStr img.image_base64 <;> rfl
        | some i =>
          cases ht : truthyStr img.image_base64 with
          | none => rfl
          | some d => exact absurd ⟨by simp [he], by simp [ht]⟩ hv
      rw [this]
      exact ih acc

/-- Claim C5 (amended): `extractImages` registers exactly the images whose
effective id (`img.id || img.name`) and base64 data are both truthy; an
image record failing either test is skipped entirely — removing all such
records from the input leaves the registry unchanged — and extraction is a
total function (no error). -/
theorem claim_c5 (ocr : OcrResult) :
    extractImages ocr = extractImages (pruneInvalid ocr) := by
  obtain ⟨pages⟩ := ocr
  cases pages with
  | none => rfl
  | some ps =>
    unfold extractImages pruneInvalid
    simp only [Option.map_some']
    generalize ([] : List (String × ImageEntry)) = acc
    induction ps generalizing acc with
    | nil => rfl
    | cons p ps ih =>
      simp only [List.map_cons, List.foldl_cons]
      cases hpi : p.images with
      | none => exact ih _
      | some imgs =>
        simp only [Option.map_some']
        rw [← extractImages_inner_filter]
        exact ih _

/-- Counterexample for C5 as stated: an image record with no `id` at all but
with a `name` and base64 data IS registered (under the name), so "registers
only when the ImageRef has both an id and data" does not hold of the code;
the amended statement uses the effective id `img.id || img.name`. -/
theorem claim_c5_counterexample :
    extractImages
        ⟨some [⟨0, none, none, some [⟨none, some "img-0.png", some "AA=="⟩]⟩]⟩
      = [("img-0.png", ⟨"AA==", "png"⟩)] ∧
    (⟨none, some "img-0.png", some "AA=="⟩ : ImageRef).id = none := by
  refine ⟨by decide, rfl⟩

theorem countGo_fuel (pat : List Char) :
    ∀ (n f g : Nat) (cs : List Char), cs.length ≤ n → cs.length ≤ f →
      cs.length ≤ g → countGo pat f cs = countGo pat g cs := by
  intro n
  induction n with
  | zero =>
    intro f g cs hn _ _
    have : cs = [] := List.length_eq_zero.mp (Nat.le_zero.mp hn)
    subst this
    cases f <;> cases g <;> rfl
  | succ n ih =>
    intro f g cs hn hf hg
    cases cs with
    | nil => cases f <;> cases g <;> rfl
    | cons c cs =>
      simp only [List.length_cons] at hn hf hg
      obtain ⟨f1, rfl⟩ : ∃ f1, f = f1 + 1 := ⟨f - 1, by omega⟩
      obtain ⟨g1, rfl⟩ : ∃ g1, g = g1 + 1 := ⟨g - 1, by omega⟩
      simp only [countGo]
      by_cases hm : jsStartsWith pat (c :: cs) = true
      · rw [if_pos hm, if_pos hm]
        have hd : (cs.drop (pat.length - 1)).length ≤ cs.length := by
          simp
        congr 1
        exact ih f1 g1 _ (by omega) (by omega) (by omega)
      · rw [if_neg hm, if_neg hm]
        exact ih f1 g1 cs (by omega) (by omega) (by omega)

theorem countSubstr_nil (pat : List Char) : countSubstr pat [] = 0 := rfl

theorem countSubstr_cons_match {pat c cs} (h : jsStartsWith pat (c :: cs) = true) :
    countSubstr pat (c :: cs) = 1 + countSubstr pat (cs.drop (pat.length - 1)) := by
  unfold countSubstr
  simp only [List.length_cons, countGo, if_pos h]
  congr 1
  exact countGo_fuel pat cs.length cs.length (cs.drop (pat.length - 1)).length _
    (by simp) (by simp) le_rfl

theorem countSubstr_cons_nomatch {pat c cs} (h : jsStartsWith pat (c :: cs) = false) :
    countSubstr pat (c :: cs) = countSubstr pat cs := by
  unfold countSubstr
  simp only [List.length_cons, countGo]
  rw [if_neg (by rw [h]; exact Bool.false_ne_true)]

theorem hasTriple_tail {c : Char} {cs : List Char} (h : hasTriple (c :: cs) = false) :
    hasTriple cs = false := by
  match cs with
  | [] => rfl
  | [_] => rfl
  | c2 :: c3 :: rest =>
    rw [hasTriple] at h
    exact (Bool.or_eq_false_iff.mp h).2

theorem hasTriple_append (u v : List Char) :
    hasTriple (u ++ '-' :: '-' :: '-' :: v) = true := by
  induction u with
  | nil => simp [hasTriple]
  | cons a u ih =>
    obtain ⟨c2, c3, r, hw⟩ : ∃ c2 c3 r, u ++ '-' :: '-' :: '-' :: v = c2 :: c3 :: r := by
      cases u with
      | nil => exact ⟨_, _, _, rfl⟩
      | cons b u2 =>
        cases u2 with
        | nil => exact ⟨_, _, _, rfl⟩
        | cons d u3 => exact ⟨_, _, _, rfl⟩
    have ih2 : hasTriple (c2 :: c3 :: r) = true := hw ▸ ih
    rw [List.cons_append, hw, hasTriple, ih2]
    simp

theorem pageSep_data :
    pageSep.data = ['\n', '\n', '-', '-', '-', '\n', '\n'] := by decide

theorem countSubstr_sep_zero {cs : List Char} (h : hasTriple cs = false) :
    countSubstr pageSep.data cs = 0 := by
  induction cs with
  | nil => rfl
  | cons c cs ih =>
    have hm : jsStartsWith pageSep.data (c :: cs) = false := by
      by_contra hx
      rw [Bool.not_eq_false] at hx
      obtain ⟨t, ht⟩ := (jsStartsWith_iff _ _).mp hx
      rw [pageSep_data] at ht
      have : hasTriple (c :: cs) = true := by
        rw [ht]
        exact hasTriple_append ['\n', '\n'] ('\n' :: '\n' :: t)
      rw [this] at h
      exact Bool.true_eq_false.mp h
    rw [countSubstr_cons_nomatch hm]
    exact ih (hasTriple_tail h)

theorem countSubstr_sep_append {x : List Char} (t : List Char)
    (hx : hasTriple x = false) :
    countSubstr pageSep.data (x ++ pageSep.data ++ t)
      = 1 + countSubstr pageSep.data t := by
  induction x with
  | nil =>
    rw [List.nil_append]
    have hshape : pageSep.data ++ t
        = '\n' :: ('\n' :: '-' :: '-' :: '-' :: '\n' :: '\n' :: t) := by
      rw [pageSep_data]; rfl
    have hm : jsStartsWith pageSep.data
        ('\n' :: ('\n' :: '-' :: '-' :: '-' :: '\n' :: '\n' :: t)) = true := by
      rw [← hshape]; exact jsStartsWith_append _ _
    rw [hshape, countSubstr_cons_match hm]
    congr 1
  | cons c x2 ih =>
    have hm : jsStartsWith pageSep.data (c :: (x2 ++ pageSep.data ++ t)) = false := by
      by_contra hcon
      rw [Bool.not_eq_false] at hcon
      obtain ⟨u, heq⟩ := (jsStartsWith_iff _ _).mp hcon
      match x2 with
      | [] =>
        rw [pageSep_data] at heq
        simp [pageSep_data, List.cons.injEq] at heq
      | [b1] =>
        rw [pageSep_data] at heq
        simp [pageSep_data, List.cons.injEq] at heq
      | [b1, b2] =>
        rw [pageSep_data] at heq
        simp [pageSep_data, List.cons.injEq] at heq
      | [b1, b2, b3] =>
        rw [pageSep_data] at heq
        simp [pageSep_data, List.cons.injEq] at heq
      | b1 :: b2 :: b3 :: b4 :: rest =>
        rw [pageSep_data] at heq
        simp only [List.cons_append, List.cons.injEq] at heq
        obtain ⟨hc, hb1, hb2, hb3, hb4, -⟩ := heq
        subst hb2; subst hb3; subst hb4
        have := hasTriple_append [c, b1] rest
        simp only [List.cons_append, List.nil_append] at this
        rw [this] at hx
        exact Bool.true_eq_false.mp hx
    have hgoal : (c :: x2) ++ pageSep.data ++ t = c :: (x2 ++ pageSep.data ++ t) := by
      simp
    rw [hgoal, countSubstr_cons_nomatch hm]
    exact ih (hasTriple_tail hx)

theorem joinSep_cons_data (s r : String) (rest : List String) :
    (joinSep (s :: r :: rest)).data
      = s.data ++ pageSep.data ++ (joinSep (r :: rest)).data := by
  show (s ++ pageSep ++ joinSep (r :: rest)).data = _
  simp [String.data_append]

theorem countSubstr_joinSep (l : List String)
    (h : ∀ s ∈ l, hasTriple s.data = false) :
    countSubstr pageSep.data (joinSep l).data = l.length - 1 := by
  induction l with
  | nil => rfl
  | cons s rest ih =>
    cases rest with
    | nil =>
      show countSubstr pageSep.data s.data = 0
      exact countSubstr_sep_zero (h s (by simp))
    | cons r rest2 =>
      rw [joinSep_cons_data,
        countSubstr_sep_append _ (h s (by simp)),
        ih fun x hx => h x (by simp [hx])]
      simp
      omega

/-- Claim C6 (amended): for every OcrResult whose pages are present, if no
page's table-inlined markdown contains three consecutive hyphens, the output
of `combineMarkdown` contains exactly N−1 occurrences of the page separator
(0 for N ≤ 1, and the empty string when there are no pages).  Without the
hyphen restriction the count can exceed N−1, since page content can spell
out the separator itself. -/
theorem claim_c6 (ocr : OcrResult) (ps : List Page) (hp : ocr.pages = some ps)
    (h : ∀ p ∈ ps, hasTriple (pageText p).data = false) :
    countSubstr pageSep.data (combineMarkdown ocr).data = ps.length - 1 ∧
    (ps = [] → combineMarkdown ocr = "") := by
  obtain ⟨pages⟩ := ocr
  simp only at hp
  subst hp
  constructor
  · cases ps with
    | nil => rfl
    | cons p ps2 =>
      show countSubstr pageSep.data
          (joinSep ((sortPages (p :: ps2)).map pageText)).data = _
      rw [countSubstr_joinSep]
      · rw [List.length_map]
        unfold sortPages
        rw [(List.perm_insertionSort pageLe (p :: ps2)).length_eq]
      · intro s hs
        obtain ⟨q, hq, rfl⟩ := List.mem_map.mp hs
        exact h q ((List.perm_insertionSort pageLe (p :: ps2)).mem_iff.mp hq)
  · intro hnil
    subst hnil
    rfl

/-- Witness for C6: the two-page example has exactly one separator. -/
theorem claim_c6_witness :
    countSubstr pageSep.data
        (combineMarkdown
          ⟨some [⟨1, some "B", none, none⟩, ⟨0, some "A", none, none⟩]⟩).data
      = 1 :=
  (claim_c6 _ [⟨1, some "B", none, none⟩, ⟨0, some "A", none, none⟩] rfl
    (by decide)).1

/-- Counterexample for C6 as stated: a single page whose markdown itself
contains the separator text produces one separator occurrence, not N−1 = 0,
so the unconditional count claim fails. -/
theorem claim_c6_counterexample :
    countSubstr pageSep.data
        (combineMarkdown ⟨some [⟨0, some "a\n\n---\n\nb", none, none⟩]⟩).data
      ≠ ([(⟨0, some "a\n\n---\n\nb", none, none⟩ : Page)]).length - 1 := by
  decide

example :
    processMarkdownImages "![a](b.png) and ![c](http://x/y.png)" "images/"
      = "![a](images/b.png) and ![c](http://x/y.png)" := by decide

example :
    processMarkdownImages "![a](images/b.png) ![d](data:image/png;base64,AA==)"
        "images/"
      = "![a](images/b.png) ![d](data:image/png;base64,AA==)" := by decide

theorem matchSrc_eval_none {t2 : List Char} (alt : List Char)
    (h : splitUntil ')' t2 = none) : matchSrc alt t2 = none := by
  rw [matchSrc, h]

theorem matchSrc_eval_some {t2 src t3 : List Char} (alt : List Char)
    (h : splitUntil ')' t2 = some (src, t3)) :
    matchSrc alt t2 = if src = [] then none else some (alt, src, t3) := by
  rw [matchSrc, h]

theorem matchTail_eval_none {r : List Char} (h : splitUntil ']' r = none) :
    matchTail r = none := by
  rw [matchTail, h]

theorem matchTail_eval_some {r alt t1 : List Char}
    (h : splitUntil ']' r = some (alt, t1)) : matchTail r = matchParen alt t1 := by
  rw [matchTail, h]

theorem matchParen_nil (alt : List Char) : matchParen alt [] = none := rfl

theorem matchParen_cons (alt : List Char) (d : Char) (t2 : List Char) :
    matchParen alt (d :: t2) = if d = '(' then matchSrc alt t2 else none := rfl

theorem matchImage_spec {cs alt src rest : List Char}
    (h : matchImage cs = some (alt, src, rest)) :
    cs = '!' :: '[' :: (alt ++ ']' :: '(' :: (src ++ ')' :: rest)) ∧
      ']' ∉ alt ∧ ')' ∉ src ∧ src ≠ [] := by
  match cs with
  | [] => exact absurd h (by simp [matchImage])
  | [c] => exact absurd h (by simp [matchImage])
  | c1 :: c2 :: r =>
    rw [matchImage] at h
    by_cases hb : c1 = '!' ∧ c2 = '['
    · rw [if_pos hb] at h
      obtain ⟨rfl, rfl⟩ := hb
      cases hs1 : splitUntil ']' r with
      | none => rw [matchTail_eval_none hs1] at h; exact absurd h (by simp)
      | some p1 =>
        obtain ⟨alt0, t1⟩ := p1
        rw [matchTail_eval_some hs1] at h
        cases t1 with
        | nil => rw [matchParen_nil] at h; exact absurd h (by simp)
        | cons d t2 =>
          rw [matchParen_cons] at h
          by_cases hd : d = '('
          · rw [if_pos hd] at h
            subst hd
            cases hs2 : splitUntil ')' t2 with
            | none =>
              rw [matchSrc_eval_none _ hs2] at h
              exact absurd h (by simp)
            | some p2 =>
              obtain ⟨src0, t3⟩ := p2
              rw [matchSrc_eval_some _ hs2] at h
              by_cases hsrc : src0 = []
              · rw [if_pos hsrc] at h; exact absurd h (by simp)
              · rw [if_neg hsrc] at h
                simp only [Option.some.injEq, Prod.mk.injEq] at h
                obtain ⟨rfl, rfl, rfl⟩ := h
                obtain ⟨he1, hm1⟩ := splitUntil_eq_some hs1
                obtain ⟨he2, hm2⟩ := splitUntil_eq_some hs2
                subst he1; subst he2
                exact ⟨rfl, hm1, hm2, hsrc⟩
          · rw [if_neg hd] at h; exact absurd h (by simp)
    · rw [if_neg hb] at h; exact absurd h (by simp)

theorem matchImage_block {alt src : List Char} (rest : List Char)
    (ha : ']' ∉ alt) (hs : ')' ∉ src) (hne : src ≠ []) :
    matchImage ('!' :: '[' :: (alt ++ ']' :: '(' :: (src ++ ')' :: rest)))
      = some (alt, src, rest) := by
  rw [matchImage, if_pos ⟨rfl, rfl⟩,
    matchTail_eval_some (splitUntil_append ('(' :: (src ++ ')' :: rest)) ha),
    matchParen_cons, if_pos rfl, matchSrc_eval_some _ (splitUntil_append rest hs),
    if_neg hne]

theorem matchImage_rest_length {cs alt src rest : List Char}
    (h : matchImage cs = some (alt, src, rest)) : rest.length < cs.length := by
  obtain ⟨he, -, -, -⟩ := matchImage_spec h
  subst he
  simp
  omega

theorem scanGo_fuel (P : List Char) :
    ∀ (n f g : Nat) (cs : List Char), cs.length ≤ n → cs.length ≤ f →
      cs.length ≤ g → scanGo P f cs = scanGo P g cs := by
  intro n
  induction n with
  | zero =>
    intro f g cs hn _ _
    have : cs = [] := List.length_eq_zero.mp (Nat.le_zero.mp hn)
    subst this
    cases f <;> cases g <;> rfl
  | succ n ih =>
    intro f g cs hn hf hg
    cases cs with
    | nil => cases f <;> cases g <;> rfl
    | cons c cs =>
      simp only [List.length_cons] at hn hf hg
      obtain ⟨f1, rfl⟩ : ∃ f1, f = f1 + 1 := ⟨f - 1, by omega⟩
      obtain ⟨g1, rfl⟩ : ∃ g1, g = g1 + 1 := ⟨g - 1, by omega⟩
      cases hm : matchImage (c :: cs) with
      | none =>
        simp only [scanGo, hm]
        rw [ih f1 g1 cs (by omega) (by omega) (by omega)]
      | some x =>
        obtain ⟨alt, src, rest⟩ := x
        have hlt := matchImage_rest_length hm
        simp only [List.length_cons] at hlt
        simp only [scanGo, hm]
        rw [ih f1 g1 rest (by omega) (by omega) (by omega)]

theorem scanImgs_nil (P : List Char) : scanImgs P [] = [] := rfl

theorem scanImgs_cons_none {P : List Char} {c : Char} {cs : List Char}
    (h : matchImage (c :: cs) = none) :
    scanImgs P (c :: cs) = c :: scanImgs P cs := by
  unfold scanImgs
  simp only [List.length_cons, scanGo, h]

theorem scanImgs_cons_some {P c cs alt src rest}
    (h : matchImage (c :: cs) = some (alt, src, rest)) :
    scanImgs P (c :: cs) = rewriteSeg P alt src ++ scanImgs P rest := by
  unfold scanImgs
  simp only [List.length_cons, scanGo, h]
  congr 1
  have hlt := matchImage_rest_length h
  simp only [List.length_cons] at hlt
  exact scanGo_fuel P cs.length cs.length rest.length rest (by omega) (by omega)
    le_rfl

theorem scanImgs_ne_nil {P : List Char} {c : Char} {cs : List Char} :
    scanImgs P (c :: cs) ≠ [] := by
  cases hm : matchImage (c :: cs) with
  | none => rw [scanImgs_cons_none hm]; simp
  | some x =>
    obtain ⟨alt, src, rest⟩ := x
    rw [scanImgs_cons_some hm]
    unfold rewriteSeg
    split <;> simp

theorem Ins.append_left {P t u : List Char} (w : List Char) (h : Ins P t u) :
    Ins P (w ++ t) (w ++ u) := by
  induction w with
  | nil => exact h
  | cons c w ih => exact Ins.cons c ih

theorem Ins.nil_inv {P u : List Char} (h : Ins P [] u) : u = [] := by
  cases h
  rfl

theorem Ins.mem {P t u : List Char} (h : Ins P t u) :
    ∀ c ∈ u, c ∈ t ∨ c ∈ P := by
  induction h with
  | nil => intro c hc; exact absurd hc (by simp)
  | cons d h ih =>
    intro c hc
    rcases List.mem_cons.mp hc with rfl | hc
    · exact Or.inl (by simp)
    · rcases ih c hc with h1 | h1
      · exact Or.inl (by simp [h1])
      · exact Or.inr h1
  | ins h hne ih =>
    intro c hc
    rcases List.mem_cons.mp hc with rfl | hc
    · exact Or.inl (by simp)
    · rcases List.mem_append.mp hc with h1 | h1
      · exact Or.inr h1
      · rcases ih c h1 with h2 | h2
        · exact Or.inl (by simp [h2])
        · exact Or.inr h2

theorem Ins.not_mem {P t u : List Char} (h : Ins P t u) {c : Char}
    (h1 : c ∉ t) (h2 : c ∉ P) : c ∉ u := by
  intro hc
  rcases h.mem c hc with hx | hx
  · exact h1 hx
  · exact h2 hx

theorem Ins.cons_inv {P : List Char} {c : Char} {t u : List Char}
    (h : Ins P (c :: t) u) :
    (∃ u2, u = c :: u2 ∧ Ins P t u2) ∨
      (c = '(' ∧ ∃ u2, u = '(' :: (P ++ u2) ∧ Ins P t u2 ∧ t.head? ≠ some ')') := by
  cases h with
  | cons _ h => exact Or.inl ⟨_, rfl, h⟩
  | ins h hne => exact Or.inr ⟨rfl, _, rfl, h, hne⟩

theorem splitUntil_append_left {c : Char} {P x a t : List Char} (hcP : c ∉ P)
    (h : splitUntil c x = some (a, t)) :
    splitUntil c (P ++ x) = some (P ++ a, t) := by
  obtain ⟨he, hm⟩ := splitUntil_eq_some h
  subst he
  rw [← List.append_assoc]
  exact splitUntil_append t (by simp [hcP, hm])

theorem splitUntil_ins {P : List Char} {c : Char} (hcP : c ∉ P) (hcp : c ≠ '(') :
    ∀ {r u : List Char}, Ins P r u → ∀ {a t : List Char},
      splitUntil c r = some (a, t) →
      ∃ a2 t2, splitUntil c u = some (a2, t2) ∧ Ins P t t2 := by
  intro r u h
  induction h with
  | nil => intro a t hs; exact absurd hs (by simp [splitUntil])
  | @cons d t0 u0 h ih =>
    intro a t hs
    rw [splitUntil] at hs
    by_cases hd : d = c
    · rw [if_pos hd] at hs
      simp only [Option.some.injEq, Prod.mk.injEq] at hs
      refine ⟨[], u0, ?_, hs.2 ▸ h⟩
      rw [splitUntil, if_pos hd]
    · rw [if_neg hd] at hs
      cases hsx : splitUntil c t0 with
      | none => rw [hsx] at hs; exact absurd hs (by simp)
      | some p =>
        obtain ⟨a0, t1⟩ := p
        rw [hsx] at hs
        simp only [Option.map_some', Option.some.injEq, Prod.mk.injEq] at hs
        obtain ⟨a2, t2, hs2, hins⟩ := ih hsx
        refine ⟨d :: a2, t2, ?_, hs.2 ▸ hins⟩
        rw [splitUntil, if_neg hd, hs2]
        rfl
  | @ins t0 u0 h hne ih =>
    intro a t hs
    rw [splitUntil] at hs
    rw [if_neg (fun hx => hcp hx.symm)] at hs
    cases hsx : splitUntil c t0 with
    | none => rw [hsx] at hs; exact absurd hs (by simp)
    | some p =>
      obtain ⟨a0, t1⟩ := p
      rw [hsx] at hs
      simp only [Option.map_some', Option.some.injEq, Prod.mk.injEq] at hs
      obtain ⟨a2, t2, hs2, hins⟩ := ih hsx
      refine ⟨'(' :: (P ++ a2), t2, ?_, hs.2 ▸ hins⟩
      rw [splitUntil, if_neg (fun hx => hcp hx.symm),
        splitUntil_append_left hcP hs2]
      rfl

theorem matchImage_not_bang {c : Char} (hc : c ≠ '!') (t : List Char) :
    matchImage (c :: t) = none := by
  cases t with
  | nil => rfl
  | cons d t2 =>
    rw [matchImage, if_neg]
    rintro ⟨h1, -⟩
    exact hc h1

theorem matchImage_not_bracket {c d : Char} (hd : d ≠ '[') (t : List Char) :
    matchImage (c :: d :: t) = none := by
  rw [matchImage, if_neg]
  rintro ⟨-, h2⟩
  exact hd h2

theorem matchTail_none_ins {P : List Char} (hP1 : ']' ∉ P) (hP2 : ')' ∉ P)
    {t3 u3 : List Char} (h : Ins P t3 u3) (hm : matchTail t3 = none) :
    matchTail u3 = none := by
  cases hs1 : splitUntil ']' t3 with
  | none =>
    exact matchTail_eval_none
      (splitUntil_eq_none.mpr (h.not_mem (splitUntil_eq_none.mp hs1) hP1))
  | some p1 =>
    obtain ⟨alt, t1⟩ := p1
    rw [matchTail_eval_some hs1] at hm
    obtain ⟨a2, t2, hs2, hrel⟩ :=
      splitUntil_ins hP1 (by decide : ']' ≠ '(') h hs1
    rw [matchTail_eval_some hs2]
    cases t1 with
    | nil =>
      rw [hrel.nil_inv, matchParen_nil]
    | cons d t4 =>
      rw [matchParen_cons] at hm
      rcases hrel.cons_inv with ⟨t5, rfl, hrel2⟩ | ⟨rfl, t5, rfl, hrel2, hne⟩
      · rw [matchParen_cons]
        by_cases hd : d = '('
        · subst hd
          rw [if_pos rfl] at hm ⊢
          cases hs3 : splitUntil ')' t4 with
          | none =>
            exact matchSrc_eval_none _
              (splitUntil_eq_none.mpr
                (hrel2.not_mem (splitUntil_eq_none.mp hs3) hP2))
          | some p2 =>
            obtain ⟨src, t6⟩ := p2
            rw [matchSrc_eval_some _ hs3] at hm
            by_cases hsrc : src = []
            · subst hsrc
              have ht4 : t4 = ')' :: t6 := by
                simpa using (splitUntil_eq_some hs3).1
              subst ht4
              rcases hrel2.cons_inv with ⟨t7, rfl, hrel3⟩ | ⟨habs, -⟩
              · rw [matchSrc_eval_some _ (show splitUntil ')' (')' :: t7)
                    = some ([], t7) by rw [splitUntil, if_pos rfl])]
                simp
              · exact absurd habs (by decide)
            · rw [if_neg hsrc] at hm
              exact absurd hm (by simp)
        · rw [if_neg hd] at hm ⊢
      · rw [matchParen_cons, if_pos rfl]
        rw [if_pos rfl] at hm
        cases hs3 : splitUntil ')' t4 with
        | none =>
          have hout : ')' ∉ P ++ t5 := by
            simp only [List.mem_append, not_or]
            exact ⟨hP2, hrel2.not_mem (splitUntil_eq_none.mp hs3) hP2⟩
          exact matchSrc_eval_none _ (splitUntil_eq_none.mpr hout)
        | some p2 =>
          obtain ⟨src, t6⟩ := p2
          rw [matchSrc_eval_some _ hs3] at hm
          by_cases hsrc : src = []
          · subst hsrc
            have ht4 : t4 = ')' :: t6 := by
              simpa using (splitUntil_eq_some hs3).1
            rw [ht4] at hne
            exact absurd rfl hne
          · rw [if_neg hsrc] at hm
            exact absurd hm (by simp)

theorem matchImage_none_ins {P : List Char} (hP1 : ']' ∉ P) (hP2 : ')' ∉ P) :
    ∀ {s u : List Char}, Ins P s u → matchImage s = none → matchImage u = none := by
  intro s u h hm
  cases s with
  | nil =>
    rw [h.nil_inv]
    rfl
  | cons c t =>
    rcases h.cons_inv with ⟨u2, rfl, hrel⟩ | ⟨rfl, u2, rfl, hrel, -⟩
    · by_cases hc : c = '!'
      · subst hc
        cases t with
        | nil =>
          rw [hrel.nil_inv]
          rfl
        | cons d t3 =>
          rcases hrel.cons_inv with ⟨u3, rfl, hrel2⟩ | ⟨rfl, u3, rfl, hrel2, -⟩
          · by_cases hd : d = '['
            · subst hd
              rw [matchImage, if_pos ⟨rfl, rfl⟩] at hm ⊢
              exact matchTail_none_ins hP1 hP2 hrel2 hm
            · exact matchImage_not_bracket hd u3
          · exact matchImage_not_bracket (by decide) (P ++ u3)
      · exact matchImage_not_bang hc u2
    · exact matchImage_not_bang (by decide) (P ++ u2)

theorem scanImgs_ins (P : List Char) :
    ∀ (n : Nat) (cs : List Char), cs.length ≤ n → Ins P cs (scanImgs P cs) := by
  intro n
  induction n with
  | zero =>
    intro cs h
    have : cs = [] := List.length_eq_zero.mp (Nat.le_zero.mp h)
    subst this
    rw [scanImgs_nil]
    exact Ins.nil
  | succ n ih =>
    intro cs h
    cases cs with
    | nil => rw [scanImgs_nil]; exact Ins.nil
    | cons c t =>
      simp only [List.length_cons] at h
      cases hm : matchImage (c :: t) with
      | none =>
        rw [scanImgs_cons_none hm]
        exact Ins.cons c (ih t (by omega))
      | some x =>
        obtain ⟨alt, src, rest⟩ := x
        rw [scanImgs_cons_some hm]
        obtain ⟨he, ha, hsp, hsne⟩ := matchImage_spec hm
        have hlen := matchImage_rest_length hm
        simp only [List.length_cons] at hlen
        have hrest : Ins P rest (scanImgs P rest) := ih rest (by omega)
        rw [he]
        unfold rewriteSeg
        by_cases hcond : (!jsStartsWith ("http".data) src
            && !jsStartsWith ("data:".data) src && !jsStartsWith P src) = true
        · rw [if_pos hcond]
          have hshape1 : '!' :: '[' :: (alt ++ ']' :: '(' :: (src ++ ')' :: rest))
              = ('!' :: '[' :: alt ++ [']']) ++ '(' :: (src ++ ')' :: rest) := by
            simp
          have hshape2 :
              ('!' :: '[' :: (alt ++ ']' :: '(' :: (P ++ src ++ [')'])))
                  ++ scanImgs P rest
                = ('!' :: '[' :: alt ++ [']'])
                    ++ '(' :: (P ++ (src ++ ')' :: scanImgs P rest)) := by
            simp
          rw [hshape1, hshape2]
          apply Ins.append_left
          refine Ins.ins (Ins.append_left src (Ins.cons ')' hrest)) ?_
          cases src with
          | nil => exact absurd rfl hsne
          | cons s0 ss =>
            simp only [List.cons_append, List.head?_cons, ne_eq, Option.some.injEq]
            intro hx
            exact hsp (List.mem_cons.mpr (Or.inl hx.symm))
        · rw [if_neg hcond]
          have hshape1 : '!' :: '[' :: (alt ++ ']' :: '(' :: (src ++ ')' :: rest))
              = ('!' :: '[' :: (alt ++ ']' :: '(' :: (src ++ [')']))) ++ rest := by
            simp
          rw [hshape1]
          exact Ins.append_left _ hrest

theorem scanImgs_idem (P : List Char) (hP1 : ']' ∉ P) (hP2 : ')' ∉ P) :
    ∀ (n : Nat) (cs : List Char), cs.length ≤ n →
      scanImgs P (scanImgs P cs) = scanImgs P cs := by
  intro n
  induction n with
  | zero =>
    intro cs h
    have : cs = [] := List.length_eq_zero.mp (Nat.le_zero.mp h)
    subst this
    rfl
  | succ n ih =>
    intro cs h
    cases cs with
    | nil => rfl
    | cons c t =>
      simp only [List.length_cons] at h
      cases hm : matchImage (c :: t) with
      | none =>
        rw [scanImgs_cons_none hm]
        have h2 : matchImage (c :: scanImgs P t) = none :=
          matchImage_none_ins hP1 hP2
            (Ins.cons c (scanImgs_ins P t.length t le_rfl)) hm
        rw [scanImgs_cons_none h2, ih t (by omega)]
      | some x =>
        obtain ⟨alt, src, rest⟩ := x
        rw [scanImgs_cons_some hm]
        obtain ⟨he, ha, hsp, hsne⟩ := matchImage_spec hm
        have hlen := matchImage_rest_length hm
        simp only [List.length_cons] at hlen
        have hidem : scanImgs P (scanImgs P rest) = scanImgs P rest :=
          ih rest (by omega)
        unfold rewriteSeg
        by_cases hcond : (!jsStartsWith ("http".data) src
            && !jsStartsWith ("data:".data) src && !jsStartsWith P src) = true
        · rw [if_pos hcond]
          have hshape :
              ('!' :: '[' :: (alt ++ ']' :: '(' :: (P ++ src ++ [')'])))
                  ++ scanImgs P rest
                = '!' :: '[' ::
                    (alt ++ ']' :: '(' :: ((P ++ src) ++ ')' :: scanImgs P rest)) := by
            simp
          rw [hshape]
          have hm2 : matchImage ('!' :: '[' ::
              (alt ++ ']' :: '(' :: ((P ++ src) ++ ')' :: scanImgs P rest)))
              = some (alt, P ++ src, scanImgs P rest) := by
            refine matchImage_block _ ha ?_ ?_
            · simp only [List.mem_append, not_or]
              exact ⟨hP2, hsp⟩
            · intro hx
              exact hsne (List.append_eq_nil.mp hx).2
          rw [scanImgs_cons_some hm2, hidem]
          unfold rewriteSeg
          rw [if_neg]
          · simp
          · rw [jsStartsWith_append P src]
            simp
        · rw [if_neg hcond]
          have hshape :
              ('!' :: '[' :: (alt ++ ']' :: '(' :: (src ++ [')'])))
                  ++ scanImgs P rest
                = '!' :: '[' ::
                    (alt ++ ']' :: '(' :: (src ++ ')' :: scanImgs P rest)) := by
            simp
          rw [hshape]
          have hm2 : matchImage ('!' :: '[' ::
              (alt ++ ']' :: '(' :: (src ++ ')' :: scanImgs P rest)))
              = some (alt, src, scanImgs P rest) :=
            matchImage_block _ ha hsp hsne
          rw [scanImgs_cons_some hm2, hidem]
          unfold rewriteSeg
          rw [if_neg hcond]
          simp

/-- Claim C3 (amended): the reference rewriter is idempotent for every
markdown string and every prefix that contains neither `)` nor `]` — in
particular for the default prefix `"images/"`, the only one the pipeline
uses.  For pathological prefixes containing those characters a second pass
can re-match inside previously rewritten text (see the counterexample). -/
theorem claim_c3 (m p : String) (h1 : ')' ∉ p.data) (h2 : ']' ∉ p.data) :
    processMarkdownImages (processMarkdownImages m p) p
      = processMarkdownImages m p := by
  unfold processMarkdownImages
  by_cases hm : m = ""
  · rw [if_pos hm]
    simp
  · rw [if_neg hm]
    have hdm : m.data ≠ [] := by
      intro hx
      exact hm (by cases m; simp_all)
    obtain ⟨c, t, hct⟩ : ∃ c t, m.data = c :: t := by
      cases hx : m.data with
      | nil => exact absurd hx hdm
      | cons c t => exact ⟨c, t, rfl⟩
    have hne : (⟨scanImgs p.data m.data⟩ : String) ≠ "" := by
      intro hx
      have : scanImgs p.data m.data = [] := by
        have := congrArg String.data hx
        simpa using this
      rw [hct] at this
      exact scanImgs_ne_nil this
    rw [if_neg hne]
    have : scanImgs p.data (scanImgs p.data m.data) = scanImgs p.data m.data :=
      scanImgs_idem p.data h2 h1 m.data.length m.data le_rfl
    rw [this]

/-- Witness for C3 at a concrete markdown and the default prefix. -/
theorem claim_c3_witness :
    processMarkdownImages
        (processMarkdownImages "![a](b.png) ![c](http://x)" "images/") "images/"
      = processMarkdownImages "![a](b.png) ![c](http://x)" "images/" :=
  claim_c3 "![a](b.png) ![c](http://x)" "images/" (by decide) (by decide)

/-- Counterexample for C3 as stated: with the pathological prefix
`"z)![b]("` a second pass rewrites text produced by the first pass, so the
rewriter is not idempotent for arbitrary prefixes. -/
theorem claim_c3_counterexample :
    processMarkdownImages (processMarkdownImages "![x](y)" "z)![b](") "z)![b]("
      ≠ processMarkdownImages "![x](y)" "z)![b](" := by
  decide

example : escapeXML "<a & \"b\">" = "&lt;a &amp; &quot;b&quot;&gt;" := by decide

example : escapeXML "" = "" := by decide

example :
    extractLatexBlocks "a $$x+y$$ b"
      = ("a %%LATEX_DISPLAY_0%% b",
         [⟨"%%LATEX_DISPLAY_0%%", "x+y", true⟩]) := by decide

example :
    extractLatexBlocks "see $x$ end"
      = ("see %%LATEX_INLINE_0%% end",
         [⟨"%%LATEX_INLINE_0%%", "x", false⟩]) := by decide

example :
    extractLatexBlocks "a$5 and $6"
      = ("a$5 and $6", []) := by decide

set_option maxRecDepth 100000 in
set_option maxHeartbeats 4000000 in
/-- Claim C1, evaluated at the failing inputs.  The first pipeline variant
(`latexToSvg`) does fall back to the verbatim dollar-delimited source.  But
in the protect-render-restore pipeline (`restoreLatexAsSvg`, used by
`generateHTML` and the EPUB content document): (a) when the math engine
throws on display math, the fallback `"$$" ++ latex ++ "$$"` passes through
`String.prototype.replace` replacement-string substitution, which collapses
each `$$` to `$`, so the final HTML contains `$\badcommand$` and not the
original `$$\badcommand$$`; and (b) when no math engine is available the
HTML is returned with the synthetic `%%LATEX_...%%` placeholder still in
place of the math and without the original dollar syntax. -/
theorem claim_c1 :
    latexToSvg none "x" true = "$$x$$" ∧
    latexToSvg none "x" false = "$x$" ∧
    restoreLatexAsSvg (some fun _ _ => none) "%%LATEX_DISPLAY_0%%"
        [⟨"%%LATEX_DISPLAY_0%%", "\\badcommand", true⟩] = "$\\badcommand$" ∧
    containsSub ("$\\badcommand$".data)
        (generateHTML id (some fun _ _ => none) "$$\\badcommand$$"
          "Document").data = true ∧
    containsSub ("$$\\badcommand$$".data)
        (generateHTML id (some fun _ _ => none) "$$\\badcommand$$"
          "Document").data = false ∧
    containsSub ("%%LATEX_DISPLAY_0%%".data)
        (generateHTML id none "$$x$$" "Document").data = true ∧
    containsSub ("$$x$$".data) (generateHTML id none "$$x$$" "Document").data
      = false := by
  refine ⟨by decide, by decide, by decide, by decide, by decide, by decide,
    by decide⟩

/-- Claim C4: in every archive produced by `generateEPUB`, the entry named
`mimetype` is the first entry, stored with explicit `STORE` (no
compression), and its content is exactly `application/epub+zip`. -/
theorem claim_c4 (render : String → String)
    (engine : Option (String → Bool → Option String))
    (uuid timestamp markdown : String) (images : List (String × ImageEntry))
    (title : String) (entries : List ZipEntry)
    (h : generateEPUB render engine uuid timestamp markdown images title
      = some entries) :
    entries.head?
      = some ⟨"mimetype", ZipContent.text "application/epub+zip", some "STORE"⟩ := by
  unfold generateEPUB at h
  cases hm : images.mapM (fun p =>
      (base64ToBytes p.2.data).map fun bytes =>
        (⟨"OEBPS/images/" ++ p.1, ZipContent.bin bytes, none⟩ : ZipEntry)) with
  | none =>
    rw [hm] at h
    exact absurd h (by simp)
  | some l =>
    rw [hm] at h
    simp only [Option.some.injEq] at h
    subst h
    rfl

/-- Witness for C4 at concrete arguments (empty image registry). -/
theorem claim_c4_witness :
    ((generateEPUB id none "u" "t" "" [] "T").getD []).head?
      = some ⟨"mimetype", ZipContent.text "application/epub+zip", some "STORE"⟩ :=
  claim_c4 id none "u" "t" "" [] "T"
    ((generateEPUB id none "u" "t" "" [] "T").getD []) (by rfl)
